import Mathlib

/-!
Verification of the peer-node wire protocol and connection engine
(`src/index.js`): Host address validation (`Host` constructor), the frame
codec (encoding in `Peer.send`, incremental decoding in
`Peer._socketEventData` / `Peer._processMessage`), receive-buffer overflow
behaviour, and the reconnection logic of `Peer._socketEventError`.

Modelling conventions:
* `Buffer` values are `List Nat`, one entry per byte.  `Buffer.alloc`
  zero-fills, and reading past the logical cursor of the receive buffer
  yields whatever the underlying storage holds, so out-of-range `List.getD`
  reads default to 0 exactly where the allocation guarantees zeros; where the
  source can read stale storage (after compaction) the model keeps the stale
  bytes, as the source does.
* `crypto.createHmac('sha256', command).update(data).digest('hex')` is an
  external collaborator primitive; it is modelled by an abstract parameter
  `hmac : String → List Nat → String` producing the hex text.
* `crypto.publicDecrypt` / `crypto.privateEncrypt` and `net.isIP` are
  external collaborators as well and are passed in abstractly
  (`pubDecrypt`, `privEncrypt`, `isIP`).
* The unbounded `while` loop of `_socketEventData` is modelled with a fuel
  argument; the loop cursor strictly increases each iteration, so fuel
  `inCursor - cursor + 1` always suffices, and every call site supplies at
  least that much.
-/

namespace PeerNode

/-- `buf.readUInt32LE(off)`: little-endian 32-bit read.  Bytes past the end
of the list read as 0 (the model is only ever applied within the allocated
buffer, which `Buffer.alloc` zero-fills). -/
def readUInt32LE (b : List Nat) (off : Nat) : Nat :=
  b.getD off 0 + b.getD (off + 1) 0 * 256 + b.getD (off + 2) 0 * 65536 +
    b.getD (off + 3) 0 * 16777216

/-- `buf.readUInt32BE(off)`: big-endian 32-bit read. -/
def readUInt32BE (b : List Nat) (off : Nat) : Nat :=
  b.getD off 0 * 16777216 + b.getD (off + 1) 0 * 65536 + b.getD (off + 2) 0 * 256 +
    b.getD (off + 3) 0

/-- `buf.writeUInt32LE(v, off)`: write the four little-endian bytes of `v`. -/
def writeUInt32LE (b : List Nat) (off v : Nat) : List Nat :=
  (((b.set off (v % 256)).set (off + 1) (v / 256 % 256)).set
      (off + 2) (v / 65536 % 256)).set (off + 3) (v / 16777216 % 256)

/-- The four little-endian bytes of a 32-bit value, as a list. -/
def le32 (v : Nat) : List Nat :=
  [v % 256, v / 256 % 256, v / 65536 % 256, v / 16777216 % 256]

/-- `Buffer.from(string)` for the strings the codec produces (hex digests):
the byte of each character.  Hex text is ASCII, where UTF-8 bytes coincide
with the character codes. -/
def asciiBytes (s : String) : List Nat :=
  s.data.map Char.toNat

/-- `src.copy(tgt, tStart, sStart, sEnd)` (Node `Buffer.copy`): copy
`src[sStart, sEnd)` into `tgt` starting at `tStart`, truncated at the end of
`tgt`; the target keeps its length. -/
def jsCopy (src tgt : List Nat) (tStart sStart sEnd : Nat) : List Nat :=
  let piece := ((src.take sEnd).drop sStart).take (tgt.length - tStart)
  tgt.take tStart ++ piece ++ tgt.drop (tStart + piece.length)

/-- Whether `needle` is an initial segment of `hay`. -/
def listStartsWith : List Char → List Char → Bool
  | [], _ => true
  | _ :: _, [] => false
  | a :: as, b :: bs => a = b && listStartsWith as bs

/-- Whether `needle` occurs as a contiguous run inside `hay`. -/
def listContains : List Char → List Char → Bool
  | needle, [] => listStartsWith needle []
  | needle, c :: rest => listStartsWith needle (c :: rest) || listContains needle rest

/-- `s.includes(sub)` (JavaScript `String.prototype.includes`): substring
containment. -/
def jsIncludes (s sub : String) : Bool :=
  listContains sub.data s.data

/-- Notifications a `Peer` emits through its event emitter.  Only the two
kinds the verified code paths can produce are modelled. -/
inductive PEvent where
  | message (command : String) (data : List Nat)
  | error (err : String)
deriving DecidableEq

/-- A constructed `Host` (`src/index.js` lines 20-81): family string
(`"IPv4"` / `"IPv6"`), address and port. -/
structure Host where
  family : String
  address : String
  port : Nat
deriving DecidableEq

/-- The `Host` constructor (`src/index.js` lines 27-44).  The source tests
`address.includes(['localhost'])`; `String.prototype.includes` coerces the
array argument to the string `'localhost'`, so the test is substring
containment of `'localhost'` in `address`.  `net.isIP` is an external
collaborator (address-family resolution) passed in abstractly; it returns
4, 6 or 0.  A zero result throws `'Unknown address family'`. -/
def hostConstruct (isIP : String → Nat) (address : String) (port : Nat) :
    Except String Host :=
  let address := if jsIncludes address "localhost" then "127.0.0.1" else address
  let version := isIP address
  if version = 0 then Except.error "Unknown address family"
  else Except.ok { family := "IPv" ++ toString version, address := address, port := port }

/-- A sample `net.isIP`, used to instantiate closed statements: recognizes
the IPv4 loopback literal and nothing else. -/
def isIPSample : String → Nat :=
  fun s => if s = "127.0.0.1" then 4 else 0

/-- The ingestion-relevant state of a `Peer`: configured header constant,
the fixed-size accumulation buffer `_inBuffer`, the cursor `_inCursor`, the
remote identity key `_remotePublicKey` (the payload bytes of a received
`SECURE` frame; the source stores their string form) and the notifications
emitted so far, in order. -/
structure PeerIngest where
  header : Nat
  inBuffer : List Nat
  inCursor : Nat
  remotePublicKey : Option (List Nat)
  events : List PEvent
deriving DecidableEq

/-- A `Peer` right after construction and buffer allocation
(`Peer.connect`, lines 202-203: `_inBuffer = Buffer.alloc(bufferSize)`,
`_inCursor = 0`), with no key pair and no remote key. -/
def freshPeer (header bufferSize : Nat) : PeerIngest :=
  { header := header
    inBuffer := List.replicate bufferSize 0
    inCursor := 0
    remotePublicKey := none
    events := [] }

/-- The command extraction of `_processMessage` (lines 295-302): characters
are taken from bytes 4..15 of the frame, zero bytes are skipped. -/
def commandOf (message : List Nat) : String :=
  String.mk ((List.range 12).filterMap fun i =>
    let s := message.getD (i + 4) 0
    if s > 0 then some (Char.ofNat s) else none)

/-- `Peer._processMessage` (lines 291-338) on one structurally complete
frame slice.  Returns the updated `_remotePublicKey` and the notifications
emitted (in order).  The payload is `Buffer.alloc(messageLength)` filled by
`message.copy(payload, 0, 24)`, hence zero-padded if the slice is short.
The checksum test compares `message.readUInt32BE(20)` against the first
four bytes of the hex text of the recomputed HMAC
(`Buffer.from(hex).readUInt32BE(0)`); on mismatch the payload is set to
null and nothing is emitted.  A `SECURE` frame stores its payload as the
remote key and emits nothing; otherwise, when a remote key is present the
payload is first transformed with `crypto.publicDecrypt`. -/
def processMessage (hmac : String → List Nat → String)
    (pubDecrypt : List Nat → List Nat → List Nat)
    (rpk : Option (List Nat)) (message : List Nat) :
    Option (List Nat) × List PEvent :=
  let messageLength := readUInt32LE message 16
  let command := commandOf message
  let checksum := readUInt32BE message 20
  let payload : Option (List Nat) :=
    if messageLength > 0 then
      let pl := (message.drop 24).take messageLength ++
        List.replicate (messageLength - (message.length - 24)) 0
      if checksum ≠ readUInt32BE (asciiBytes (hmac command pl)) 0 then none
      else some pl
    else some []
  match payload with
  | none => (rpk, [])
  | some pl =>
      if command = "SECURE" then (some pl, [])
      else
        match rpk with
        | some key => (rpk, [PEvent.message command (pubDecrypt key pl)])
        | none => (rpk, [PEvent.message command pl])

/-- The message-splitting `while` loop of `_socketEventData`
(lines 139-163), with fuel.  Arguments after `inCursor`: fuel, `cursor`,
`messageEnd`, current remote key, notifications accumulated so far.
Returns final `messageEnd`, remote key and notifications. -/
def scanLoop (hmac : String → List Nat → String)
    (pubDecrypt : List Nat → List Nat → List Nat) (header : Nat)
    (buf : List Nat) (inCursor : Nat) :
    Nat → Nat → Nat → Option (List Nat) → List PEvent →
      Nat × Option (List Nat) × List PEvent
  | 0, _, messageEnd, rpk, evs => (messageEnd, rpk, evs)
  | fuel + 1, cursor, messageEnd, rpk, evs =>
    if cursor < inCursor then
      if readUInt32LE buf cursor = header then
        if inCursor > cursor + 16 then
          let messageLength := readUInt32LE buf (cursor + 16)
          if inCursor ≥ cursor + messageLength + 24 then
            let res := processMessage hmac pubDecrypt rpk
              ((buf.drop cursor).take (messageLength + 24))
            scanLoop hmac pubDecrypt header buf inCursor fuel
              (cursor + messageLength + 24) (cursor + messageLength + 24)
              res.1 (evs ++ res.2)
          else
            scanLoop hmac pubDecrypt header buf inCursor fuel
              (cursor + messageLength + 24) messageEnd rpk evs
        else
          scanLoop hmac pubDecrypt header buf inCursor fuel inCursor messageEnd rpk evs
      else
        scanLoop hmac pubDecrypt header buf inCursor fuel (cursor + 1) messageEnd rpk evs
    else (messageEnd, rpk, evs)

/-- `Peer._socketEventData` (lines 124-170).  If the chunk would overrun the
buffer: emit the overflow error, pin the cursor to `length + 1`, return.
Otherwise copy the chunk in, advance the cursor, return early below 20
buffered bytes, run the splitting loop, and compact the buffer when a
message was consumed (`messageEnd > 0`). -/
def socketEventData (hmac : String → List Nat → String)
    (pubDecrypt : List Nat → List Nat → List Nat)
    (p : PeerIngest) (data : List Nat) : PeerIngest :=
  if data.length + p.inCursor > p.inBuffer.length then
    { p with
      events := p.events ++ [PEvent.error "Peer exceeded max receiving buffer"]
      inCursor := p.inBuffer.length + 1 }
  else
    let buf := jsCopy data p.inBuffer p.inCursor 0 data.length
    let cur := p.inCursor + data.length
    if cur < 20 then { p with inBuffer := buf, inCursor := cur }
    else
      let res := scanLoop hmac pubDecrypt p.header buf cur (cur + 1) 0 0
        p.remotePublicKey []
      if res.1 > 0 then
        { p with
          inBuffer := jsCopy buf buf 0 res.1 cur
          inCursor := cur - res.1
          remotePublicKey := res.2.1
          events := p.events ++ res.2.2 }
      else
        { p with
          inBuffer := buf
          inCursor := cur
          remotePublicKey := res.2.1
          events := p.events ++ res.2.2 }

/-- Feeding a list of data chunks to a `Peer`, one `data` event per chunk. -/
def feedPeer (hmac : String → List Nat → String)
    (pubDecrypt : List Nat → List Nat → List Nat)
    (p : PeerIngest) (chunks : List (List Nat)) : PeerIngest :=
  chunks.foldl (socketEventData hmac pubDecrypt) p

/-- The 12-byte command field of an encoded frame: character codes, zero
padded, truncated to 12. -/
def cmdField (codes : List Nat) : List Nat :=
  codes.take 12 ++ List.replicate (12 - (codes.take 12).length) 0

/-- The 4-byte integrity-tag field of an encoded frame: the first four
bytes of the checksum text, zero padded if the text is shorter. -/
def tagField (checksum : List Nat) : List Nat :=
  checksum.take 4 ++ List.replicate (4 - (checksum.take 4).length) 0

/-- The frame `Peer.send` produces, in explicit concatenated form:
little-endian header, 12-byte zero-padded command, little-endian payload
length, 4 bytes of hex-text checksum, payload. -/
def encodedFrame (hmac : String → List Nat → String) (header : Nat)
    (command : String) (data : List Nat) : List Nat :=
  le32 header ++ cmdField (command.data.map Char.toNat) ++ le32 data.length ++
    tagField (asciiBytes (hmac command data)) ++ data

/-- The command-writing loop of `Peer.send` (lines 374-379): for
`i = 0..11`, if `i < command.length` write `command.charCodeAt(i)` at byte
`i + 4`.  `Buffer.writeUInt8` throws `ERR_OUT_OF_RANGE` for a value above
255, which the `try` around the socket write does not cover, so the loop is
fallible.  Fuel 12 runs the loop to completion. -/
def writeCommandLoop (codes : List Nat) : Nat → List Nat → Nat → Except String (List Nat)
  | 0, b, _ => Except.ok b
  | fuel + 1, b, i =>
    if i < 12 then
      if i < codes.length then
        if codes.getD i 0 > 255 then
          Except.error "The value of value is out of range"
        else writeCommandLoop codes fuel (b.set (i + 4) (codes.getD i 0)) (i + 1)
      else writeCommandLoop codes fuel b (i + 1)
    else Except.ok b

/-- The frame-building part of `Peer.send` (lines 367-389), applied to the
(possibly already transformed) payload bytes: allocate
`data.length + 24` zero bytes, write the header, the command characters,
the payload length, then copy in the checksum text (truncated at the buffer
end) and, over it, the payload. -/
def sendBuild (hmac : String → List Nat → String) (header : Nat)
    (command : String) (data : List Nat) : Except String (List Nat) :=
  let outgoing0 := List.replicate (data.length + 24) 0
  let outgoing1 := writeUInt32LE outgoing0 0 header
  match writeCommandLoop (command.data.map Char.toNat) 12 outgoing1 0 with
  | Except.error e => Except.error e
  | Except.ok outgoing2 =>
    let outgoing3 := writeUInt32LE outgoing2 16 data.length
    let checksum := asciiBytes (hmac command data)
    let outgoing4 := jsCopy checksum outgoing3 20 0 checksum.length
    let outgoing5 := jsCopy data outgoing4 24 0 data.length
    Except.ok outgoing5

/-- A generated key pair (`keypair()` collaborator): public and private key
material as bytes. -/
structure Keypair where
  pub : List Nat
  priv : List Nat
deriving DecidableEq

/-- `Peer.send` (lines 355-398).  `data = null` becomes an empty buffer.
When the command is not `SECURE` and both a local key pair and a remote key
exist, the payload is transformed with `crypto.privateEncrypt` — outside
the `try`, so its failure propagates (`privEncrypt` is the abstract,
fallible collaborator transform).  Frame building can also throw (command
character above 255).  Only the socket write sits inside `try`/`catch`;
its outcome is the abstract `writeOk`, and a failed write returns `false`
rather than throwing. -/
def sendModel (hmac : String → List Nat → String)
    (privEncrypt : List Nat → List Nat → Except String (List Nat))
    (kp : Option Keypair) (rpk : Option (List Nat)) (header : Nat)
    (command : String) (dataArg : Option (List Nat)) (writeOk : Bool) :
    Except String Bool :=
  let data := match dataArg with
    | none => []
    | some d => d
  let enc : Except String (List Nat) :=
    if command ≠ "SECURE" ∧ kp ≠ none ∧ rpk ≠ none then
      privEncrypt ((kp.getD { pub := [], priv := [] }).priv) data
    else Except.ok data
  match enc with
  | Except.error e => Except.error e
  | Except.ok data2 =>
    match sendBuild hmac header command data2 with
    | Except.error e => Except.error e
    | Except.ok _frame => if writeOk then Except.ok true else Except.ok false

/-- The connection-machine state of a `Peer`: `_state` (null before the
first connect), `_connectionAttempts`, whether `_socket` is non-null, the
constructor-stored `_maxConnectionAttempts`, and emitted notifications. -/
structure PeerConn where
  state : Option String
  connectionAttempts : Nat
  socketPresent : Bool
  maxConnectionAttempts : Nat
  events : List PEvent
deriving DecidableEq

/-- The synchronous effect of `Peer.connect()` (lines 201-225) for a Peer
with no key pair: when `_socket` is null a fresh outward connection is
started (`_state = 'connecting'`, a socket is created and stored);
otherwise the stored socket is returned unchanged.  (The buffer reset of
lines 202-203 concerns the ingestion state modelled by `PeerIngest`.) -/
def connectModel (p : PeerConn) : PeerConn :=
  if p.socketPresent then p
  else { p with state := some "connecting", socketPresent := true }

/-- Models the guard `this._connectionAttempts >= this._maxConnectionAttemps`
of line 186.  The source reads the property `_maxConnectionAttemps` (note
the missing `t`), which no assignment in the class ever writes — the
constructor stores the limit under `_maxConnectionAttempts` (line 107).  In
JavaScript the absent property reads as `undefined`, and
`n >= undefined` is `false` for every `n`. -/
def attemptsReachedLimit (_p : PeerConn) : Bool := false

/-- `Peer._socketEventError` (lines 176-189): while `'connecting'`,
increment the attempt counter, drop the socket and re-invoke `connect()`;
then emit `error` only when no longer connecting or when the (misspelled)
attempt-limit guard fires. -/
def socketEventError (p : PeerConn) (err : String) : PeerConn :=
  let p1 := if p.state = some "connecting" then
      connectModel { p with
        connectionAttempts := p.connectionAttempts + 1
        socketPresent := false }
    else p
  if p1.state ≠ some "connecting" ∨ attemptsReachedLimit p1 = true then
    { p1 with events := p1.events ++ [PEvent.error err] }
  else p1

/-- A `Peer` mid-dial: state `'connecting'`, no attempts yet, socket
handle live, default attempt limit 10. -/
def connectingPeerSample : PeerConn :=
  { state := some "connecting"
    connectionAttempts := 0
    socketPresent := true
    maxConnectionAttempts := 10
    events := [] }

/-- `n` consecutive transport-level errors delivered to a `Peer`. -/
def errorStorm (p : PeerConn) : Nat → PeerConn
  | 0 => p
  | n + 1 => errorStorm (socketEventError p "ECONNREFUSED") n

/-- The chunk-free decoding state used to reason about fragmentation: the
unconsumed byte residue, the remote key, and the notifications so far. -/
structure PureState where
  residue : List Nat
  rpk : Option (List Nat)
  events : List PEvent
deriving DecidableEq

/-- One ingestion step on the chunk-free state: append the chunk, return
early below 20 bytes, otherwise run the splitting loop over exactly the
buffered content and drop the consumed prefix. -/
def pureStep (hmac : String → List Nat → String)
    (pubDecrypt : List Nat → List Nat → List Nat) (header : Nat)
    (σ : PureState) (c : List Nat) : PureState :=
  let content := σ.residue ++ c
  if content.length < 20 then { σ with residue := content }
  else
    let res := scanLoop hmac pubDecrypt header content content.length
      (content.length + 1) 0 0 σ.rpk σ.events
    { residue := content.drop res.1, rpk := res.2.1, events := res.2.2 }

/-- A sample HMAC collaborator for closed statements: constant hex text. -/
def hmacSample : String → List Nat → String :=
  fun _ _ => "aaaa"

/-- A sample `crypto.publicDecrypt` collaborator: identity transform. -/
def pubDecryptSample : List Nat → List Nat → List Nat :=
  fun _ d => d

/-- A sample `crypto.privateEncrypt` collaborator: identity transform that
never fails. -/
def privEncryptSample : List Nat → List Nat → Except String (List Nat) :=
  fun _ d => Except.ok d

/-- The frame `Peer.send` produces for command `SECURE` with payload `[1]`
under `hmacSample` and the default header `0xA27CC1A2`. -/
def secureFrameSample : List Nat :=
  [162, 193, 124, 162, 83, 69, 67, 85, 82, 69, 0, 0, 0, 0, 0, 0,
   1, 0, 0, 0, 97, 97, 97, 97, 1]

/-- The simulation relation between a `Peer`'s ingestion state and the
chunk-free model: the cursor counts exactly the residue bytes, the buffer
agrees with the residue below the cursor, and key and notifications match. -/
def ingestRel (header B : Nat) (p : PeerIngest) (σ : PureState) : Prop :=
  p.header = header ∧ p.inBuffer.length = B ∧ p.inCursor = σ.residue.length ∧
  (∀ i, i < σ.residue.length → p.inBuffer.getD i 0 = σ.residue.getD i 0) ∧
  p.remotePublicKey = σ.rpk ∧ p.events = σ.events

/-! ### Basic list access lemmas -/

theorem getD_oob (l : List Nat) (k : Nat) (h : l.length ≤ k) : l.getD k 0 = 0 := by
  rw [List.getD_eq_getElem?_getD, List.getElem?_eq_none h, Option.getD_none]

theorem getD_append_any (a b : List Nat) (k : Nat) :
    (a ++ b).getD k 0 = if k < a.length then a.getD k 0 else b.getD (k - a.length) 0 := by
  split
  · exact List.getD_append a b 0 k (by assumption)
  · exact List.getD_append_right a b 0 k (by omega)

theorem getD_take_lt (l : List Nat) (n k : Nat) (h : k < n) :
    (l.take n).getD k 0 = l.getD k 0 := by
  rw [List.getD_eq_getElem?_getD, List.getD_eq_getElem?_getD, List.getElem?_take,
    if_pos h]

theorem getD_drop (l : List Nat) (n k : Nat) : (l.drop n).getD k 0 = l.getD (n + k) 0 := by
  rw [List.getD_eq_getElem?_getD, List.getD_eq_getElem?_getD, List.getElem?_drop]

theorem getD_replicate (m k : Nat) : (List.replicate m (0 : Nat)).getD k 0 = 0 := by
  rw [List.getD_eq_getElem?_getD, List.getElem?_replicate]
  split <;> rfl

theorem list_ext_getD (l₁ l₂ : List Nat) (hlen : l₁.length = l₂.length)
    (h : ∀ k, k < l₁.length → l₁.getD k 0 = l₂.getD k 0) : l₁ = l₂ := by
  refine List.ext_getElem hlen ?_
  intro n h₁ h₂
  have hn := h n h₁
  rw [List.getD_eq_getElem?_getD, List.getD_eq_getElem?_getD,
    List.getElem?_eq_getElem h₁, List.getElem?_eq_getElem h₂] at hn
  simpa using hn

theorem length_jsCopy (src tgt : List Nat) (t s e : Nat) (h : t ≤ tgt.length) :
    (jsCopy src tgt t s e).length = tgt.length := by
  simp only [jsCopy, List.length_append, List.length_take, List.length_drop]
  omega

theorem jsCopy_full_src (src tgt : List Nat) (t : Nat) (h : t + src.length ≤ tgt.length) :
    jsCopy src tgt t 0 src.length = tgt.take t ++ src ++ tgt.drop (t + src.length) := by
  simp only [jsCopy, List.take_length, List.drop_zero]
  rw [List.take_of_length_le (l := src) (by omega)]

theorem jsCopy_compact (buf : List Nat) (mE cur : Nat) (hc : cur ≤ buf.length) :
    jsCopy buf buf 0 mE cur =
      (buf.take cur).drop mE ++ buf.drop (((buf.take cur).drop mE).length) := by
  simp only [jsCopy, List.take_zero, List.nil_append, Nat.zero_add, Nat.sub_zero]
  rw [List.take_of_length_le (by simp only [List.length_drop, List.length_take]; omega)]

/-! ### Structure of the frames `Peer.send` builds -/

theorem writeUInt32LE_append (X : List Nat) (c0 c1 c2 c3 : Nat) (rest : List Nat)
    (off v : Nat) (hoff : X.length = off) :
    writeUInt32LE (X ++ c0 :: c1 :: c2 :: c3 :: rest) off v = X ++ le32 v ++ rest := by
  subst hoff
  simp only [writeUInt32LE]
  rw [List.set_append, if_neg (by omega), Nat.sub_self, List.set_cons_zero,
    List.set_append, if_neg (by omega), Nat.add_sub_cancel_left, List.set_cons_succ,
    List.set_cons_zero,
    List.set_append, if_neg (by omega), Nat.add_sub_cancel_left, List.set_cons_succ,
    List.set_cons_succ, List.set_cons_zero,
    List.set_append, if_neg (by omega), Nat.add_sub_cancel_left, List.set_cons_succ,
    List.set_cons_succ, List.set_cons_succ, List.set_cons_zero]
  simp [le32]

theorem writeUInt32LE_eq (b : List Nat) (off v : Nat) (h : off + 4 ≤ b.length) :
    writeUInt32LE b off v = b.take off ++ le32 v ++ b.drop (off + 4) := by
  have h0 : off < b.length := by omega
  have h1 : off + 1 < b.length := by omega
  have h2 : off + 2 < b.length := by omega
  have h3 : off + 3 < b.length := by omega
  have hX : (b.take off).length = off := by rw [List.length_take]; omega
  have hsplit : b = b.take off ++
      b[off] :: b[off + 1] :: b[off + 2] :: b[off + 3] :: b.drop (off + 4) := by
    conv_lhs => rw [← List.take_append_drop off b]
    congr 1
    rw [List.drop_eq_getElem_cons h0]
    congr 1
    rw [List.drop_eq_getElem_cons h1]
    congr 1
    rw [List.drop_eq_getElem_cons h2]
    congr 1
    rw [List.drop_eq_getElem_cons h3]
  conv_lhs => rw [hsplit]
  exact writeUInt32LE_append _ _ _ _ _ _ _ _ hX

theorem writeCommandLoop_go (codes : List Nat)
    (h255 : ∀ j, j < 12 → j < codes.length → codes.getD j 0 ≤ 255) :
    ∀ (f i : Nat) (pre mid post : List Nat), f + i = 12 → pre.length = i + 4 →
      mid.length = 12 - i →
      writeCommandLoop codes f (pre ++ mid ++ post) i =
        Except.ok (pre ++ ((codes.drop i).take (12 - i) ++
          mid.drop ((codes.drop i).take (12 - i)).length) ++ post) := by
  intro f
  induction f with
  | zero =>
      intro i pre mid post hf hpre hmid
      have hi : i = 12 := by omega
      subst hi
      have hmidnil : mid = [] := List.eq_nil_of_length_eq_zero (by omega)
      subst hmidnil
      simp [writeCommandLoop]
  | succ k ih =>
      intro i pre mid post hf hpre hmid
      have hi : i < 12 := by omega
      obtain ⟨m, rest, hm⟩ : ∃ m rest, mid = m :: rest := by
        cases mid with
        | nil => simp at hmid; omega
        | cons m rest => exact ⟨m, rest, rfl⟩
      subst hm
      rw [writeCommandLoop, if_pos hi]
      by_cases hic : i < codes.length
      · rw [if_pos hic, if_neg (by have := h255 i hi hic; omega)]
        have hset : (pre ++ (m :: rest) ++ post).set (i + 4) (codes.getD i 0) =
            pre ++ (codes.getD i 0 :: rest) ++ post := by
          rw [List.set_append,
            if_pos (by simp only [List.length_append, hpre, List.length_cons]; omega),
            List.set_append, if_neg (by omega), hpre, Nat.sub_self, List.set_cons_zero]
        rw [hset]
        have hre : pre ++ (codes.getD i 0 :: rest) ++ post =
            (pre ++ [codes.getD i 0]) ++ rest ++ post := by
          simp
        have hlen1 : (pre ++ [codes.getD i 0]).length = (i + 1) + 4 := by
          simp only [List.length_append, hpre, List.length_cons, List.length_nil]
        have hlen2 : rest.length = 12 - (i + 1) := by
          simp only [List.length_cons] at hmid
          omega
        rw [hre, ih (i + 1) (pre ++ [codes.getD i 0]) rest post (by omega) hlen1 hlen2]
        have hdropc : codes.drop i = codes.getD i 0 :: codes.drop (i + 1) := by
          rw [List.drop_eq_getElem_cons hic]
          congr 1
          rw [List.getD_eq_getElem?_getD, List.getElem?_eq_getElem hic]
          rfl
        have htk : (codes.drop i).take (12 - i) =
            codes.getD i 0 :: (codes.drop (i + 1)).take (12 - (i + 1)) := by
          rw [hdropc, show 12 - i = (12 - (i + 1)) + 1 from by omega, List.take_succ_cons]
        rw [htk]
        simp [List.drop_succ_cons]
      · rw [if_neg hic]
        have hre : pre ++ (m :: rest) ++ post = (pre ++ [m]) ++ rest ++ post := by
          simp
        have hlen1 : (pre ++ [m]).length = (i + 1) + 4 := by
          simp only [List.length_append, hpre, List.length_cons, List.length_nil]
        have hlen2 : rest.length = 12 - (i + 1) := by
          simp only [List.length_cons] at hmid
          omega
        rw [hre, ih (i + 1) (pre ++ [m]) rest post (by omega) hlen1 hlen2]
        have hd1 : codes.drop i = [] := List.drop_eq_nil_of_le (by omega)
        have hd2 : codes.drop (i + 1) = [] := List.drop_eq_nil_of_le (by omega)
        rw [hd1, hd2]
        simp

theorem length_tagField (cs : List Nat) : (tagField cs).length = 4 := by
  simp only [tagField, List.length_append, List.length_replicate, List.length_take]
  omega

theorem tagField_getD (cs : List Nat) (k : Nat) (hk : k < 4) :
    (tagField cs).getD k 0 = cs.getD k 0 := by
  simp only [tagField]
  rw [getD_append_any]
  split
  · next h =>
      rw [List.length_take] at h
      exact getD_take_lt cs 4 k hk
  · next h =>
      rw [List.length_take] at h
      rw [getD_replicate, getD_oob cs k (by omega)]

theorem tag_take (cs : List Nat) (n : Nat) :
    (cs.take (n + 4) ++
        List.replicate (n + 4 - (cs.take (n + 4)).length) (0 : Nat)).take 4 =
      tagField cs := by
  apply list_ext_getD
  · rw [List.length_take, List.length_append, List.length_replicate, length_tagField,
      List.length_take]
    omega
  · intro k hk
    rw [List.length_take, List.length_append, List.length_replicate,
      List.length_take] at hk
    have hk4 : k < 4 := by omega
    rw [getD_take_lt _ _ _ hk4, tagField_getD cs k hk4, getD_append_any]
    split
    · next h =>
        rw [List.length_take] at h
        exact getD_take_lt cs (n + 4) k (by omega)
    · next h =>
        rw [List.length_take] at h
        rw [getD_replicate, getD_oob cs k (by omega)]

theorem sendBuild_eq (hmac : String → List Nat → String) (header : Nat)
    (command : String) (data : List Nat)
    (h255 : ∀ j, j < 12 → j < (command.data.map Char.toNat).length →
      (command.data.map Char.toNat).getD j 0 ≤ 255) :
    sendBuild hmac header command data =
      Except.ok (encodedFrame hmac header command data) := by
  simp only [sendBuild]
  set codes := command.data.map Char.toNat with hcodes
  set n := data.length with hn
  set cs := asciiBytes (hmac command data) with hcs
  have hout1 : writeUInt32LE (List.replicate (n + 24) 0) 0 header =
      le32 header ++ (List.replicate 12 0 ++ List.replicate (n + 8) (0 : Nat)) := by
    rw [writeUInt32LE_eq _ _ _ (by rw [List.length_replicate]; omega)]
    rw [List.take_zero, List.drop_replicate, show n + 24 - 4 = 12 + (n + 8) from by omega,
      List.replicate_add]
    simp
  rw [hout1]
  have hloop := writeCommandLoop_go codes h255 12 0 (le32 header)
    (List.replicate 12 0) (List.replicate (n + 8) 0) (by omega) (by simp [le32])
    (by simp)
  rw [← List.append_assoc, hloop]
  have hw : ((codes.drop 0).take (12 - 0) ++
      (List.replicate 12 0).drop ((codes.drop 0).take (12 - 0)).length) =
      cmdField codes := by
    simp only [List.drop_zero, Nat.sub_zero, List.drop_replicate, cmdField]
  rw [hw]
  have hlen12 : (cmdField codes).length = 12 := by
    rw [cmdField, List.length_append, List.length_replicate, List.length_take]
    omega
  have hlen16 : (le32 header ++ cmdField codes).length = 16 := by
    rw [List.length_append, hlen12]
    simp [le32]
  have hlenout2 : (le32 header ++ cmdField codes ++ List.replicate (n + 8) 0).length
      = n + 24 := by
    rw [List.length_append, hlen16, List.length_replicate]
    omega
  have hlen20 : (le32 header ++ cmdField codes ++ le32 n).length = 20 := by
    rw [List.length_append, hlen16]
    simp [le32]
  have hout3 : writeUInt32LE (le32 header ++ cmdField codes ++ List.replicate (n + 8) 0)
      16 n = le32 header ++ cmdField codes ++ le32 n ++ List.replicate (n + 4) 0 := by
    rw [writeUInt32LE_eq _ _ _ (by rw [hlenout2]; omega)]
    rw [List.take_append_of_le_length (by rw [hlen16]),
      List.take_of_length_le (by rw [hlen16]),
      show (16 : Nat) + 4 = (le32 header ++ cmdField codes).length + 4
        from by rw [hlen16],
      List.drop_append, List.drop_replicate, show n + 8 - 4 = n + 4 from by omega]
  have hlenout3 : (le32 header ++ cmdField codes ++ le32 n ++
      List.replicate (n + 4) 0).length = n + 24 := by
    rw [List.length_append, hlen20, List.length_replicate]
    omega
  have hout4 : jsCopy cs (le32 header ++ cmdField codes ++ le32 n ++
      List.replicate (n + 4) 0) 20 0 cs.length =
      le32 header ++ cmdField codes ++ le32 n ++
        (cs.take (n + 4) ++ List.replicate (n + 4 - (cs.take (n + 4)).length) 0) := by
    simp only [jsCopy, List.take_length, List.drop_zero]
    rw [hlenout3, show n + 24 - 20 = n + 4 from by omega]
    rw [List.take_append_of_le_length (by rw [hlen20]),
      List.take_of_length_le (by rw [hlen20]),
      show (20 : Nat) + (cs.take (n + 4)).length =
          (le32 header ++ cmdField codes ++ le32 n).length + (cs.take (n + 4)).length
        from by rw [hlen20],
      List.drop_append, List.drop_replicate]
    simp [List.append_assoc]
  have hlenY : (le32 header ++ cmdField codes ++ le32 n ++
      (cs.take (n + 4) ++ List.replicate (n + 4 - (cs.take (n + 4)).length) 0)).length =
      n + 24 := by
    rw [List.length_append, hlen20, List.length_append, List.length_replicate,
      List.length_take]
    omega
  have htake24 : (le32 header ++ cmdField codes ++ le32 n ++
      (cs.take (n + 4) ++ List.replicate (n + 4 - (cs.take (n + 4)).length) 0)).take 24 =
      le32 header ++ cmdField codes ++ le32 n ++ tagField cs := by
    rw [show (24 : Nat) = (le32 header ++ cmdField codes ++ le32 n).length + 4
      from by rw [hlen20], List.take_append]
    congr 1
    exact tag_take cs n
  have hfinal : jsCopy data (jsCopy cs (writeUInt32LE
      (le32 header ++ cmdField codes ++ List.replicate (n + 8) 0) 16 n) 20 0 cs.length)
      24 0 n = encodedFrame hmac header command data := by
    rw [hout3, hout4, hn, jsCopy_full_src data _ 24 (by rw [← hn, hlenY]; omega)]
    rw [← hn, List.drop_eq_nil_of_le (by rw [hlenY]; omega), htake24]
    simp only [encodedFrame, ← hcodes, ← hn, ← hcs]
    simp [List.append_assoc]
  exact congrArg Except.ok hfinal

/-! ### Reading back the fields of an encoded frame -/

theorem read_le32 (v : Nat) (rest : List Nat) :
    readUInt32LE (le32 v ++ rest) 0 = v % 4294967296 := by
  simp only [readUInt32LE, le32, List.cons_append, List.nil_append,
    List.getD_cons_zero, List.getD_cons_succ]
  omega

theorem readUInt32LE_append_ge (A B : List Nat) (off : Nat) (h : A.length ≤ off) :
    readUInt32LE (A ++ B) off = readUInt32LE B (off - A.length) := by
  simp only [readUInt32LE]
  rw [List.getD_append_right A B 0 off h,
    List.getD_append_right A B 0 (off + 1) (by omega),
    List.getD_append_right A B 0 (off + 2) (by omega),
    List.getD_append_right A B 0 (off + 3) (by omega),
    show off + 1 - A.length = off - A.length + 1 from by omega,
    show off + 2 - A.length = off - A.length + 2 from by omega,
    show off + 3 - A.length = off - A.length + 3 from by omega]

theorem readUInt32BE_append_ge (A B : List Nat) (off : Nat) (h : A.length ≤ off) :
    readUInt32BE (A ++ B) off = readUInt32BE B (off - A.length) := by
  simp only [readUInt32BE]
  rw [List.getD_append_right A B 0 off h,
    List.getD_append_right A B 0 (off + 1) (by omega),
    List.getD_append_right A B 0 (off + 2) (by omega),
    List.getD_append_right A B 0 (off + 3) (by omega),
    show off + 1 - A.length = off - A.length + 1 from by omega,
    show off + 2 - A.length = off - A.length + 2 from by omega,
    show off + 3 - A.length = off - A.length + 3 from by omega]

theorem readUInt32BE_tagField (cs rest : List Nat) :
    readUInt32BE (tagField cs ++ rest) 0 = readUInt32BE cs 0 := by
  simp only [readUInt32BE, Nat.zero_add]
  rw [List.getD_append _ _ _ _ (by rw [length_tagField]; omega),
    List.getD_append _ _ _ _ (by rw [length_tagField]; omega),
    List.getD_append _ _ _ _ (by rw [length_tagField]; omega),
    List.getD_append _ _ _ _ (by rw [length_tagField]; omega),
    tagField_getD cs 0 (by omega), tagField_getD cs 1 (by omega),
    tagField_getD cs 2 (by omega), tagField_getD cs 3 (by omega)]

theorem length_cmdField (codes : List Nat) : (cmdField codes).length = 12 := by
  rw [cmdField, List.length_append, List.length_replicate, List.length_take]
  omega

theorem length_encodedFrame (hmac : String → List Nat → String) (header : Nat)
    (command : String) (data : List Nat) :
    (encodedFrame hmac header command data).length = data.length + 24 := by
  simp only [encodedFrame, List.length_append, length_cmdField, length_tagField]
  simp [le32]
  omega

theorem encodedFrame_split (hmac : String → List Nat → String) (header : Nat)
    (command : String) (data : List Nat) :
    encodedFrame hmac header command data =
      (le32 header ++ (cmdField (command.data.map Char.toNat) ++
        (le32 data.length ++ (tagField (asciiBytes (hmac command data)) ++ data)))) := by
  simp [encodedFrame, List.append_assoc]

theorem encodedFrame_drop24 (hmac : String → List Nat → String) (header : Nat)
    (command : String) (data : List Nat) :
    (encodedFrame hmac header command data).drop 24 = data := by
  rw [encodedFrame_split]
  rw [show (24 : Nat) = (le32 header ++ (cmdField (command.data.map Char.toNat) ++
      (le32 data.length ++ tagField (asciiBytes (hmac command data))))).length from ?_]
  · rw [show le32 header ++ (cmdField (command.data.map Char.toNat) ++
        (le32 data.length ++ (tagField (asciiBytes (hmac command data)) ++ data))) =
        (le32 header ++ (cmdField (command.data.map Char.toNat) ++
          (le32 data.length ++ tagField (asciiBytes (hmac command data))))) ++ data
      from by simp [List.append_assoc]]
    exact List.drop_left' rfl
  · simp only [List.length_append, length_cmdField, length_tagField]
    simp [le32]

theorem encodedFrame_read_header (hmac : String → List Nat → String) (header : Nat)
    (command : String) (data : List Nat) :
    readUInt32LE (encodedFrame hmac header command data) 0 = header % 4294967296 := by
  rw [encodedFrame_split]
  exact read_le32 header _

theorem encodedFrame_read_length (hmac : String → List Nat → String) (header : Nat)
    (command : String) (data : List Nat) :
    readUInt32LE (encodedFrame hmac header command data) 16 =
      data.length % 4294967296 := by
  rw [encodedFrame_split,
    show le32 header ++ (cmdField (command.data.map Char.toNat) ++
        (le32 data.length ++ (tagField (asciiBytes (hmac command data)) ++ data))) =
      (le32 header ++ cmdField (command.data.map Char.toNat)) ++
        (le32 data.length ++ (tagField (asciiBytes (hmac command data)) ++ data))
      from by simp [List.append_assoc]]
  rw [readUInt32LE_append_ge _ _ 16
    (by simp only [List.length_append, length_cmdField]; simp [le32])]
  rw [show (16 : Nat) -
      (le32 header ++ cmdField (command.data.map Char.toNat)).length = 0 from by
    simp only [List.length_append, length_cmdField]; simp [le32]]
  exact read_le32 data.length _

theorem encodedFrame_read_checksum (hmac : String → List Nat → String) (header : Nat)
    (command : String) (data : List Nat) :
    readUInt32BE (encodedFrame hmac header command data) 20 =
      readUInt32BE (asciiBytes (hmac command data)) 0 := by
  rw [encodedFrame_split,
    show le32 header ++ (cmdField (command.data.map Char.toNat) ++
        (le32 data.length ++ (tagField (asciiBytes (hmac command data)) ++ data))) =
      (le32 header ++ (cmdField (command.data.map Char.toNat) ++ le32 data.length)) ++
        (tagField (asciiBytes (hmac command data)) ++ data)
      from by simp [List.append_assoc]]
  rw [readUInt32BE_append_ge _ _ 20
    (by simp only [List.length_append, length_cmdField]; simp [le32])]
  rw [show (20 : Nat) - (le32 header ++ (cmdField (command.data.map Char.toNat) ++
      le32 data.length)).length = 0 from by
    simp only [List.length_append, length_cmdField]; simp [le32]]
  exact readUInt32BE_tagField _ _

/-! ### The command field round-trips through `commandOf` -/

theorem filterMap_range_front (g : Nat → Char) (m : Nat) :
    ∀ n, (List.range n).filterMap (fun i => if i < m then some (g i) else none) =
      (List.range (min m n)).map g := by
  intro n
  induction n with
  | zero => simp
  | succ k ih =>
      rw [List.range_succ, List.filterMap_append, ih]
      by_cases h : k < m
      · rw [show min m (k + 1) = min m k + 1 from by omega, List.range_succ,
          List.map_append, show min m k = k from by omega]
        simp [h]
      · rw [show min m (k + 1) = min m k from by omega]
        simp [h]

theorem range_map_getD (l : List Char) (d : Char) :
    (List.range l.length).map (fun i => l.getD i d) = l := by
  induction l with
  | nil => rfl
  | cons a t ih =>
      rw [List.length_cons, List.range_succ_eq_map, List.map_cons, List.map_map]
      have hf : ((fun i => (a :: t).getD i d) ∘ Nat.succ) = (fun i => t.getD i d) := by
        funext i
        rfl
      rw [hf, ih]
      rfl

theorem getD_map_toNat (l : List Char) (i : Nat) :
    (l.map Char.toNat).getD i 0 = (l.getD i (Char.ofNat 0)).toNat := by
  calc (l.map Char.toNat).getD i 0
      = (l.map Char.toNat).getD i (Char.toNat (Char.ofNat 0)) := rfl
    _ = (l.getD i (Char.ofNat 0)).toNat := @List.getD_map Char Nat l (Char.ofNat 0) i
        Char.toNat

theorem getD_mem_of_lt (l : List Char) (i : Nat) (d : Char) (h : i < l.length) :
    l.getD i d ∈ l := by
  rw [List.getD_eq_getElem?_getD, List.getElem?_eq_getElem h, Option.getD_some]
  exact List.getElem_mem h

theorem commandOf_encodedFrame (hmac : String → List Nat → String) (header : Nat)
    (command : String) (data : List Nat) (hlen : command.length ≤ 12)
    (hpos : ∀ c ∈ command.data, 0 < c.toNat) :
    commandOf (encodedFrame hmac header command data) = command := by
  have hcode : ∀ i, i < 12 →
      (encodedFrame hmac header command data).getD (i + 4) 0 =
        if i < command.length then (command.data.map Char.toNat).getD i 0 else 0 := by
    intro i hi
    rw [encodedFrame_split, getD_append_any]
    rw [show (le32 header).length = 4 from by simp [le32], if_neg (by omega),
      show i + 4 - 4 = i from by omega, getD_append_any,
      length_cmdField, if_pos hi]
    simp only [cmdField, getD_append_any, List.length_take]
    have hclen : (command.data.map Char.toNat).length = command.length := by
      rw [List.length_map]
      rfl
    split
    · next h =>
        rw [getD_take_lt _ _ _ (by omega), if_pos (by omega)]
    · next h =>
        rw [getD_replicate, if_neg (by omega)]
  have hfm : commandOf (encodedFrame hmac header command data) =
      String.mk ((List.range 12).filterMap fun i =>
        if i < command.length then
          some (Char.ofNat ((command.data.map Char.toNat).getD i 0)) else none) := by
    rw [commandOf]
    congr 1
    refine List.filterMap_congr ?_
    intro i hi
    rw [List.mem_range] at hi
    rw [hcode i hi]
    by_cases h : i < command.length
    · rw [if_pos h, if_pos h, if_pos ?_]
      rw [getD_map_toNat]
      refine hpos _ (getD_mem_of_lt _ _ _ ?_)
      exact h
    · rw [if_neg h, if_neg h]
      simp
  rw [hfm]
  have hchars : ∀ i, i < command.length →
      Char.ofNat ((command.data.map Char.toNat).getD i 0) =
        command.data.getD i (Char.ofNat 0) := by
    intro i hi
    rw [getD_map_toNat, Char.ofNat_toNat]
  have := filterMap_range_front
    (fun i => Char.ofNat ((command.data.map Char.toNat).getD i 0)) command.length 12
  rw [this, show min command.length 12 = command.length from by omega]
  have hdata : command.length = command.data.length := rfl
  rw [show (List.range command.length).map
        (fun i => Char.ofNat ((command.data.map Char.toNat).getD i 0)) =
      (List.range command.data.length).map
        (fun i => command.data.getD i (Char.ofNat 0)) from ?_]
  · rw [range_map_getD]
  · rw [← hdata]
    refine List.map_congr_left ?_
    intro i hi
    rw [List.mem_range] at hi
    exact hchars i hi

/-! ### `_processMessage` on a frame built by `send` -/

theorem readUInt32LE_append_left (A B : List Nat) (off : Nat) (h : off + 4 ≤ A.length) :
    readUInt32LE (A ++ B) off = readUInt32LE A off := by
  simp only [readUInt32LE]
  rw [List.getD_append A B 0 off (by omega), List.getD_append A B 0 (off + 1) (by omega),
    List.getD_append A B 0 (off + 2) (by omega),
    List.getD_append A B 0 (off + 3) (by omega)]

theorem processMessage_encodedFrame (hmac : String → List Nat → String)
    (pubDecrypt : List Nat → List Nat → List Nat) (rpk : Option (List Nat))
    (header : Nat) (command : String) (data : List Nat)
    (hlen12 : command.length ≤ 12) (hpos : ∀ c ∈ command.data, 0 < c.toNat)
    (hdlen : data.length < 4294967296) :
    processMessage hmac pubDecrypt rpk (encodedFrame hmac header command data) =
      if command = "SECURE" then (some data, [])
      else match rpk with
        | some key => (rpk, [PEvent.message command (pubDecrypt key data)])
        | none => (rpk, [PEvent.message command data]) := by
  simp only [processMessage]
  rw [encodedFrame_read_length, Nat.mod_eq_of_lt hdlen,
    commandOf_encodedFrame hmac header command data hlen12 hpos,
    encodedFrame_read_checksum, encodedFrame_drop24, length_encodedFrame,
    show data.length + 24 - 24 = data.length from by omega, Nat.sub_self,
    List.take_length, List.replicate_zero, List.append_nil]
  by_cases hd0 : data.length > 0
  · rw [if_pos hd0, if_neg (fun hne => hne rfl)]
  · rw [if_neg hd0]
    have hdnil : data = [] := List.eq_nil_of_length_eq_zero (by omega)
    subst hdnil
    rfl

/-! ### Ingesting exactly one complete frame from a fresh Peer -/

theorem scanLoop_exit (hmac : String → List Nat → String)
    (pubDecrypt : List Nat → List Nat → List Nat) (header : Nat) (buf : List Nat)
    (inCursor fuel cursor mE : Nat) (rpk : Option (List Nat)) (evs : List PEvent)
    (h : inCursor ≤ cursor) :
    scanLoop hmac pubDecrypt header buf inCursor fuel cursor mE rpk evs =
      (mE, rpk, evs) := by
  cases fuel with
  | zero => rfl
  | succ f => rw [scanLoop, if_neg (by omega)]

theorem socketEventData_single_frame (hmac : String → List Nat → String)
    (pubDecrypt : List Nat → List Nat → List Nat) (header B : Nat) (frame : List Nat)
    (hhead : readUInt32LE frame 0 = header)
    (hlen : frame.length = readUInt32LE frame 16 + 24)
    (hfit : frame.length ≤ B) :
    (socketEventData hmac pubDecrypt (freshPeer header B) frame).events =
      (processMessage hmac pubDecrypt none frame).2 ∧
    (socketEventData hmac pubDecrypt (freshPeer header B) frame).remotePublicKey =
      (processMessage hmac pubDecrypt none frame).1 ∧
    (socketEventData hmac pubDecrypt (freshPeer header B) frame).inCursor = 0 := by
  have h24 : 24 ≤ frame.length := by omega
  simp only [socketEventData, freshPeer]
  rw [if_neg (by rw [List.length_replicate]; omega)]
  have hbuf : jsCopy frame (List.replicate B 0) 0 0 frame.length =
      frame ++ List.replicate (B - frame.length) 0 := by
    rw [jsCopy_full_src _ _ _ (by rw [List.length_replicate]; omega)]
    rw [List.take_zero, List.nil_append, Nat.zero_add, List.drop_replicate]
  rw [hbuf]
  rw [if_neg (by omega)]
  have hpre : readUInt32LE (frame ++ List.replicate (B - frame.length) 0) 0 =
      header := by
    rw [readUInt32LE_append_left _ _ _ (by omega)]
    exact hhead
  have hpre16 : readUInt32LE (frame ++ List.replicate (B - frame.length) 0) 16 =
      readUInt32LE frame 16 := by
    rw [readUInt32LE_append_left _ _ _ (by omega)]
  have hscan : scanLoop hmac pubDecrypt header
      (frame ++ List.replicate (B - frame.length) 0) (0 + frame.length)
      (0 + frame.length + 1) 0 0 none [] =
      (readUInt32LE frame 16 + 24, (processMessage hmac pubDecrypt none frame).1,
        (processMessage hmac pubDecrypt none frame).2) := by
    rw [show (0 + frame.length + 1) = frame.length + 1 from by omega, scanLoop,
      if_pos (by omega), if_pos hpre, if_pos (by omega), hpre16,
      if_pos (by omega)]
    rw [List.drop_zero, List.take_left' hlen]
    rw [scanLoop_exit _ _ _ _ _ _ _ _ _ _ (by omega)]
    simp
  rw [hscan, if_pos (by omega)]
  refine ⟨rfl, rfl, ?_⟩
  show 0 + frame.length - (readUInt32LE frame 16 + 24) = 0
  omega

/-! ### Claim C4: integrity mismatch is silently discarded but consumed -/

/-- C4 (confirmed): a structurally complete frame whose 4-byte tag field,
read big-endian, differs from the 32-bit big-endian read of the first four
bytes of the recomputed HMAC hex text is processed without raising any
message or error notification, and its bytes are still consumed: after the
event the cursor is back at 0 (the whole frame was compacted away). -/
theorem integrity_mismatch_silently_consumed
    (hmac : String → List Nat → String) (pubDecrypt : List Nat → List Nat → List Nat)
    (header B : Nat) (frame : List Nat)
    (hhead : readUInt32LE frame 0 = header)
    (hlen : frame.length = readUInt32LE frame 16 + 24)
    (hfit : frame.length ≤ B)
    (hposlen : 0 < readUInt32LE frame 16)
    (hbad : readUInt32BE frame 20 ≠ readUInt32BE (asciiBytes (hmac (commandOf frame)
      ((frame.drop 24).take (readUInt32LE frame 16) ++
        List.replicate (readUInt32LE frame 16 - (frame.length - 24)) 0))) 0) :
    (socketEventData hmac pubDecrypt (freshPeer header B) frame).events = [] ∧
    (socketEventData hmac pubDecrypt (freshPeer header B) frame).inCursor = 0 ∧
    (socketEventData hmac pubDecrypt (freshPeer header B) frame).remotePublicKey =
      none := by
  obtain ⟨he, hrpk, hcur⟩ :=
    socketEventData_single_frame hmac pubDecrypt header B frame hhead hlen hfit
  have hpm : processMessage hmac pubDecrypt none frame = (none, []) := by
    simp only [processMessage]
    rw [if_pos hposlen, if_pos hbad]
  refine ⟨?_, hcur, ?_⟩
  · rw [he, hpm]
  · rw [hrpk, hpm]

/-- Witness for C4: a 25-byte frame with command `A`, declared length 1,
tag bytes 0 and payload `[7]`; under `hmacSample` the recomputed tag word is
0x61616161 ≠ 0, so the frame is dropped silently yet fully consumed. -/
theorem integrity_mismatch_silently_consumed_witness :
    (readUInt32LE [162, 193, 124, 162, 65, 0, 0, 0, 0, 0, 0, 0, 0, 0, 0, 0,
        1, 0, 0, 0, 0, 0, 0, 0, 7] 0 = 2726085026 ∧
      (socketEventData hmacSample pubDecryptSample (freshPeer 2726085026 30)
        [162, 193, 124, 162, 65, 0, 0, 0, 0, 0, 0, 0, 0, 0, 0, 0,
          1, 0, 0, 0, 0, 0, 0, 0, 7]).events = [] ∧
      (socketEventData hmacSample pubDecryptSample (freshPeer 2726085026 30)
        [162, 193, 124, 162, 65, 0, 0, 0, 0, 0, 0, 0, 0, 0, 0, 0,
          1, 0, 0, 0, 0, 0, 0, 0, 7]).inCursor = 0) := by
  refine ⟨by decide, ?_, ?_⟩
  · exact (integrity_mismatch_silently_consumed hmacSample pubDecryptSample
      2726085026 30 [162, 193, 124, 162, 65, 0, 0, 0, 0, 0, 0, 0, 0, 0, 0, 0,
        1, 0, 0, 0, 0, 0, 0, 0, 7]
      (by decide) (by decide) (by decide) (by decide) (by decide)).1
  · exact (integrity_mismatch_silently_consumed hmacSample pubDecryptSample
      2726085026 30 [162, 193, 124, 162, 65, 0, 0, 0, 0, 0, 0, 0, 0, 0, 0, 0,
        1, 0, 0, 0, 0, 0, 0, 0, 7]
      (by decide) (by decide) (by decide) (by decide) (by decide)).2.1

/-! ### Claim C5: zero-length frames are never tag-verified -/

/-- C5 (confirmed): for a structurally complete frame whose declared payload
length is 0, the four tag bytes are irrelevant — replacing them changes
nothing — and the frame is processed: a `SECURE` command stores the empty
payload as the remote key with no notification, any other command raises
exactly one message notification carrying the empty payload (transformed
with the remote key when one is present); an integrity mismatch can never be
signalled for such a frame. -/
theorem zero_length_frame_skips_verification
    (hmac : String → List Nat → String) (pubDecrypt : List Nat → List Nat → List Nat)
    (rpk : Option (List Nat)) (m t : List Nat)
    (hm : 24 ≤ m.length) (ht : t.length = 4) (hzero : readUInt32LE m 16 = 0) :
    processMessage hmac pubDecrypt rpk (m.take 20 ++ t ++ m.drop 24) =
      processMessage hmac pubDecrypt rpk m ∧
    (commandOf m = "SECURE" → processMessage hmac pubDecrypt rpk m = (some [], [])) ∧
    (commandOf m ≠ "SECURE" → processMessage hmac pubDecrypt rpk m =
      (rpk, [PEvent.message (commandOf m)
        (match rpk with | some key => pubDecrypt key [] | none => [])])) := by
  have hgetD : ∀ i, i < 20 → (m.take 20 ++ t ++ m.drop 24).getD i 0 = m.getD i 0 := by
    intro i hi
    rw [getD_append_any, List.length_append, List.length_take, ht,
      if_pos (by omega), getD_append_any, List.length_take, if_pos (by omega),
      getD_take_lt _ _ _ hi]
  have hw16 : readUInt32LE (m.take 20 ++ t ++ m.drop 24) 16 = readUInt32LE m 16 := by
    simp only [readUInt32LE]
    rw [hgetD 16 (by omega), hgetD 17 (by omega), hgetD 18 (by omega),
      hgetD 19 (by omega)]
  have hcmd : commandOf (m.take 20 ++ t ++ m.drop 24) = commandOf m := by
    rw [commandOf, commandOf]
    congr 1
    refine List.filterMap_congr ?_
    intro i hi
    rw [List.mem_range] at hi
    rw [hgetD (i + 4) (by omega)]
  refine ⟨?_, ?_, ?_⟩
  · simp only [processMessage]
    rw [hw16, hcmd]
    simp [hzero]
  · intro hsec
    simp [processMessage, hzero, hsec]
  · intro hsec
    cases rpk with
    | none => simp [processMessage, hzero, hsec]
    | some key => simp [processMessage, hzero, hsec]

/-- Witness for C5 at a concrete 24-byte frame with command `A`, length 0,
tag `[5, 6, 7, 8]`, replaced by tag `[9, 9, 9, 9]`. -/
theorem zero_length_frame_skips_verification_witness :
    (24 ≤ ([162, 193, 124, 162, 65, 0, 0, 0, 0, 0, 0, 0, 0, 0, 0, 0,
        0, 0, 0, 0, 5, 6, 7, 8] : List Nat).length ∧
      ([9, 9, 9, 9] : List Nat).length = 4 ∧
      readUInt32LE [162, 193, 124, 162, 65, 0, 0, 0, 0, 0, 0, 0, 0, 0, 0, 0,
        0, 0, 0, 0, 5, 6, 7, 8] 16 = 0) ∧
    processMessage hmacSample pubDecryptSample none
        ((List.take 20 [162, 193, 124, 162, 65, 0, 0, 0, 0, 0, 0, 0, 0, 0, 0, 0,
          0, 0, 0, 0, 5, 6, 7, 8]) ++ [9, 9, 9, 9] ++
          (List.drop 24 [162, 193, 124, 162, 65, 0, 0, 0, 0, 0, 0, 0, 0, 0, 0, 0,
            0, 0, 0, 0, 5, 6, 7, 8])) =
      processMessage hmacSample pubDecryptSample none
        [162, 193, 124, 162, 65, 0, 0, 0, 0, 0, 0, 0, 0, 0, 0, 0,
          0, 0, 0, 0, 5, 6, 7, 8] := by
  refine ⟨⟨by decide, by decide, by decide⟩, ?_⟩
  exact (zero_length_frame_skips_verification hmacSample pubDecryptSample none
    [162, 193, 124, 162, 65, 0, 0, 0, 0, 0, 0, 0, 0, 0, 0, 0,
      0, 0, 0, 0, 5, 6, 7, 8] [9, 9, 9, 9]
    (by decide) (by decide) (by decide)).1

/-! ### Claim C10: SECURE frames store the remote key silently -/

/-- C10 (confirmed): a structurally complete frame whose command decodes to
`SECURE` and whose integrity check passes (or is skipped because the
declared length is 0) makes `_processMessage` store the frame's payload as
the remote identity key and emit no notification at all. -/
theorem secure_frame_stores_key (hmac : String → List Nat → String)
    (pubDecrypt : List Nat → List Nat → List Nat) (rpk : Option (List Nat))
    (m : List Nat) (hsec : commandOf m = "SECURE")
    (hok : readUInt32LE m 16 = 0 ∨
      readUInt32BE m 20 = readUInt32BE (asciiBytes (hmac (commandOf m)
        ((m.drop 24).take (readUInt32LE m 16) ++
          List.replicate (readUInt32LE m 16 - (m.length - 24)) 0))) 0) :
    processMessage hmac pubDecrypt rpk m =
      (some ((m.drop 24).take (readUInt32LE m 16) ++
        List.replicate (readUInt32LE m 16 - (m.length - 24)) 0), []) := by
  rcases hok with h0 | heq
  · simp [processMessage, h0, hsec]
  · by_cases hn : 0 < readUInt32LE m 16
    · simp [processMessage, hsec, heq, hn]
    · have h0 : readUInt32LE m 16 = 0 := by omega
      simp [processMessage, h0, hsec]

/-- Witness for C10: the sample SECURE frame (payload `[1]`, valid tag under
`hmacSample`) stores `[1]` as the remote key and emits nothing. -/
theorem secure_frame_stores_key_witness :
    (commandOf secureFrameSample = "SECURE" ∧
      readUInt32BE secureFrameSample 20 =
        readUInt32BE (asciiBytes (hmacSample (commandOf secureFrameSample)
          ((secureFrameSample.drop 24).take (readUInt32LE secureFrameSample 16) ++
            List.replicate (readUInt32LE secureFrameSample 16 -
              (secureFrameSample.length - 24)) 0))) 0) ∧
    processMessage hmacSample pubDecryptSample none secureFrameSample =
      (some ((secureFrameSample.drop 24).take (readUInt32LE secureFrameSample 16) ++
        List.replicate (readUInt32LE secureFrameSample 16 -
          (secureFrameSample.length - 24)) 0), []) := by
  refine ⟨⟨by decide, by decide⟩, ?_⟩
  exact secure_frame_stores_key hmacSample pubDecryptSample none secureFrameSample
    (by decide) (Or.inr (by decide))

/-! ### Claim C6: the integrity tag is truncated hex text -/

/-- C6 (confirmed): every frame `send` builds carries at bytes 20-23 exactly
the first 4 bytes of the ASCII hex text of `HMAC-SHA256(key = command,
message = payload)` — the text itself truncated, not a decoded digest — and
the 32-bit big-endian read of those bytes equals the big-endian read of the
hex text's first four bytes; the receiver accepts a non-`SECURE`,
nonempty-payload frame (emits its message) exactly when the frame's tag
word equals that recomputed value. -/
theorem integrity_tag_wire_format (hmac : String → List Nat → String)
    (pubDecrypt : List Nat → List Nat → List Nat) :
    (∀ (header : Nat) (command : String) (data : List Nat),
      (∀ j, j < 12 → j < (command.data.map Char.toNat).length →
        (command.data.map Char.toNat).getD j 0 ≤ 255) →
      4 ≤ (hmac command data).length →
      ∃ frame, sendBuild hmac header command data = Except.ok frame ∧
        (frame.drop 20).take 4 = (asciiBytes (hmac command data)).take 4 ∧
        readUInt32BE frame 20 = readUInt32BE (asciiBytes (hmac command data)) 0) ∧
    (∀ (rpk : Option (List Nat)) (m : List Nat),
      0 < readUInt32LE m 16 → commandOf m ≠ "SECURE" →
      ((processMessage hmac pubDecrypt rpk m).2 ≠ [] ↔
        readUInt32BE m 20 = readUInt32BE (asciiBytes (hmac (commandOf m)
          ((m.drop 24).take (readUInt32LE m 16) ++
            List.replicate (readUInt32LE m 16 - (m.length - 24)) 0))) 0)) := by
  constructor
  · intro header command data h255 h4
    refine ⟨encodedFrame hmac header command data,
      sendBuild_eq hmac header command data h255, ?_, ?_⟩
    · have hdrop : (encodedFrame hmac header command data).drop 20 =
          tagField (asciiBytes (hmac command data)) ++ data := by
        rw [encodedFrame_split,
          show le32 header ++ (cmdField (command.data.map Char.toNat) ++
              (le32 data.length ++ (tagField (asciiBytes (hmac command data)) ++ data))) =
            (le32 header ++ (cmdField (command.data.map Char.toNat) ++
              le32 data.length)) ++
              (tagField (asciiBytes (hmac command data)) ++ data)
            from by simp [List.append_assoc]]
        refine List.drop_left' ?_
        simp only [List.length_append, length_cmdField]
        simp [le32]
      rw [hdrop, List.take_append_of_le_length (by rw [length_tagField]),
        List.take_of_length_le (by rw [length_tagField]), tagField]
      have hl4 : ((asciiBytes (hmac command data)).take 4).length = 4 := by
        rw [List.length_take, asciiBytes, List.length_map]
        have : (hmac command data).length = (hmac command data).data.length := rfl
        omega
      rw [hl4]
      simp
    · exact encodedFrame_read_checksum hmac header command data
  · intro rpk m hlen hcmd
    by_cases heq : readUInt32BE m 20 = readUInt32BE (asciiBytes (hmac (commandOf m)
        ((m.drop 24).take (readUInt32LE m 16) ++
          List.replicate (readUInt32LE m 16 - (m.length - 24)) 0))) 0
    · cases rpk with
      | none => simp [processMessage, hlen, heq, hcmd]
      | some key => simp [processMessage, hlen, heq, hcmd]
    · simp [processMessage, hlen, heq, hcmd]

/-- Witness for C6 at concrete inputs: the encode half at command `PING`
with payload `[1, 2]`, and the verify half at the sample mismatching frame
from the C4 witness. -/
theorem integrity_tag_wire_format_witness :
    ((∀ j, j < 12 → j < ("PING".data.map Char.toNat).length →
        ("PING".data.map Char.toNat).getD j 0 ≤ 255) ∧
      4 ≤ (hmacSample "PING" [1, 2]).length ∧
      0 < readUInt32LE [162, 193, 124, 162, 65, 0, 0, 0, 0, 0, 0, 0, 0, 0, 0, 0,
        1, 0, 0, 0, 0, 0, 0, 0, 7] 16 ∧
      commandOf [162, 193, 124, 162, 65, 0, 0, 0, 0, 0, 0, 0, 0, 0, 0, 0,
        1, 0, 0, 0, 0, 0, 0, 0, 7] ≠ "SECURE") ∧
    (∃ frame, sendBuild hmacSample 2726085026 "PING" [1, 2] = Except.ok frame ∧
      (frame.drop 20).take 4 = (asciiBytes (hmacSample "PING" [1, 2])).take 4 ∧
      readUInt32BE frame 20 = readUInt32BE (asciiBytes (hmacSample "PING" [1, 2])) 0) ∧
    ¬ ((processMessage hmacSample pubDecryptSample none
        [162, 193, 124, 162, 65, 0, 0, 0, 0, 0, 0, 0, 0, 0, 0, 0,
          1, 0, 0, 0, 0, 0, 0, 0, 7]).2 ≠ []) := by
  refine ⟨⟨by decide, by decide, by decide, by decide⟩, ?_, ?_⟩
  · exact (integrity_tag_wire_format hmacSample pubDecryptSample).1 2726085026 "PING"
      [1, 2] (by decide) (by decide)
  · intro hne
    have hiff := (integrity_tag_wire_format hmacSample pubDecryptSample).2 none
      [162, 193, 124, 162, 65, 0, 0, 0, 0, 0, 0, 0, 0, 0, 0, 0,
        1, 0, 0, 0, 0, 0, 0, 0, 7] (by decide) (by decide)
    exact absurd (hiff.mp hne) (by decide)

/-! ### Claim C9: send and exceptions -/

/-- Counterexample to C9 as stated: `send` is claimed never to raise for
every command and payload, but a command whose character does not fit in a
byte (here the euro sign, char code 8364) makes `writeUInt8` throw
`ERR_OUT_OF_RANGE` outside the `try`/`catch`, so `send` raises instead of
returning false. -/
theorem send_throws_on_wide_command_char :
    sendModel hmacSample privEncryptSample none none 2726085026 "€" none true =
      Except.error "The value of value is out of range" := by
  rfl

/-- C9 (corrected): for commands whose (first twelve) character codes fit in
a byte and whenever the authentication transform, if applicable, succeeds,
`send` never raises: it returns `true` on a successful transport write and
`false` on a failed one — the write failure is caught and reported as a
return value, not thrown. -/
theorem send_write_failure_returned (hmac : String → List Nat → String)
    (privEncrypt : List Nat → List Nat → Except String (List Nat))
    (kp : Option Keypair) (rpk : Option (List Nat)) (header : Nat)
    (command : String) (dataArg : Option (List Nat)) (writeOk : Bool)
    (h255 : ∀ j, j < 12 → j < (command.data.map Char.toNat).length →
      (command.data.map Char.toNat).getD j 0 ≤ 255)
    (henc : command ≠ "SECURE" → kp ≠ none → rpk ≠ none →
      ∃ d, privEncrypt ((kp.getD { pub := [], priv := [] }).priv)
        (match dataArg with
          | none => []
          | some d0 => d0) = Except.ok d) :
    sendModel hmac privEncrypt kp rpk header command dataArg writeOk =
      Except.ok writeOk := by
  simp only [sendModel]
  have hbuild : ∀ d : List Nat, (match sendBuild hmac header command d with
      | Except.error e => Except.error e
      | Except.ok _frame => if writeOk then Except.ok true else Except.ok false) =
      Except.ok writeOk := by
    intro d
    rw [sendBuild_eq hmac header command d h255]
    cases writeOk with
    | true => rfl
    | false => rfl
  by_cases hcond : command ≠ "SECURE" ∧ kp ≠ none ∧ rpk ≠ none
  · rw [if_pos hcond]
    obtain ⟨d, hd⟩ := henc hcond.1 hcond.2.1 hcond.2.2
    rw [hd]
    exact hbuild d
  · rw [if_neg hcond]
    exact hbuild _

/-- Witness for C9's corrected statement: a concrete send with no key pair
and a failing transport write returns `Except.ok false`. -/
theorem send_write_failure_returned_witness :
    ((∀ j, j < 12 → j < ("PING".data.map Char.toNat).length →
        ("PING".data.map Char.toNat).getD j 0 ≤ 255) ∧
      sendModel hmacSample privEncryptSample none none 2726085026 "PING"
        (some [1, 2]) false = Except.ok false) := by
  refine ⟨by decide, ?_⟩
  exact send_write_failure_returned hmacSample privEncryptSample none none 2726085026
    "PING" (some [1, 2]) false (by decide)
    (fun _ h2 _ => absurd rfl h2)

/-! ### Claim C1: encode/decode round trip -/

/-- Counterexample to C1 as stated: the claim quantifies over every command
of at most 12 ASCII characters, but for command `SECURE` the fresh receiver
surfaces NO message notification at all — the frame is intercepted by the
handshake layer, which stores the payload as the remote identity key
instead. -/
theorem roundtrip_fails_for_secure :
    sendBuild hmacSample 2726085026 "SECURE" [1] = Except.ok secureFrameSample ∧
    (socketEventData hmacSample pubDecryptSample (freshPeer 2726085026 64)
      secureFrameSample).events = [] ∧
    (socketEventData hmacSample pubDecryptSample (freshPeer 2726085026 64)
      secureFrameSample).remotePublicKey = some [1] := by
  exact ⟨rfl, rfl, rfl⟩

/-- C1 (corrected): the round-trip law holds once `SECURE` is excluded and
the frame fits the receive buffer: for every command of at most 12
non-NUL ASCII characters other than `SECURE` and every payload that fits,
encoding with `send`'s framing and feeding the frame to a fresh Peer
surfaces exactly one message notification with the original command and
payload. -/
theorem roundtrip_non_secure (hmac : String → List Nat → String)
    (pubDecrypt : List Nat → List Nat → List Nat) (header B : Nat)
    (command : String) (payload : List Nat)
    (hheader : header < 4294967296)
    (hcmdlen : command.length ≤ 12)
    (hchars : ∀ c ∈ command.data, 0 < c.toNat ∧ c.toNat ≤ 127)
    (hsec : command ≠ "SECURE")
    (hplen : payload.length < 4294967296)
    (hfit : payload.length + 24 ≤ B) :
    sendBuild hmac header command payload =
      Except.ok (encodedFrame hmac header command payload) ∧
    (socketEventData hmac pubDecrypt (freshPeer header B)
      (encodedFrame hmac header command payload)).events =
      [PEvent.message command payload] := by
  have h255 : ∀ j, j < 12 → j < (command.data.map Char.toNat).length →
      (command.data.map Char.toNat).getD j 0 ≤ 255 := by
    intro j hj hjl
    rw [getD_map_toNat]
    have hjl2 : j < command.data.length := by
      rw [List.length_map] at hjl
      exact hjl
    have hmem := getD_mem_of_lt command.data j (Char.ofNat 0) hjl2
    have := (hchars _ hmem).2
    omega
  refine ⟨sendBuild_eq hmac header command payload h255, ?_⟩
  have hpos : ∀ c ∈ command.data, 0 < c.toNat := fun c hc => (hchars c hc).1
  have hhead : readUInt32LE (encodedFrame hmac header command payload) 0 = header := by
    rw [encodedFrame_read_header, Nat.mod_eq_of_lt hheader]
  have hlenf : (encodedFrame hmac header command payload).length =
      readUInt32LE (encodedFrame hmac header command payload) 16 + 24 := by
    rw [length_encodedFrame, encodedFrame_read_length, Nat.mod_eq_of_lt hplen]
  have hfit2 : (encodedFrame hmac header command payload).length ≤ B := by
    rw [length_encodedFrame]
    omega
  obtain ⟨he, _, _⟩ :=
    socketEventData_single_frame hmac pubDecrypt header B _ hhead hlenf hfit2
  rw [he, processMessage_encodedFrame hmac pubDecrypt none header command payload
    hcmdlen hpos hplen, if_neg hsec]

/-- Witness for C1's corrected statement at command `PING`, payload
`[10, 20, 30]`, default header, buffer size 64. -/
theorem roundtrip_non_secure_witness :
    ((2726085026 : Nat) < 4294967296 ∧ "PING".length ≤ 12 ∧
      (∀ c ∈ "PING".data, 0 < c.toNat ∧ c.toNat ≤ 127) ∧ "PING" ≠ "SECURE" ∧
      ([10, 20, 30] : List Nat).length < 4294967296 ∧
      ([10, 20, 30] : List Nat).length + 24 ≤ 64) ∧
    (socketEventData hmacSample pubDecryptSample (freshPeer 2726085026 64)
      (encodedFrame hmacSample 2726085026 "PING" [10, 20, 30])).events =
      [PEvent.message "PING" [10, 20, 30]] := by
  refine ⟨⟨by decide, by decide, by decide, by decide, by decide, by decide⟩, ?_⟩
  exact (roundtrip_non_secure hmacSample pubDecryptSample 2726085026 64 "PING"
    [10, 20, 30] (by decide) (by decide) (by decide) (by decide) (by decide)
    (by decide)).2

/-- C8 (code_bug): the claim states that construction succeeds exactly for
valid IP literals and the literal string `localhost`.  In the source,
`address.includes(['localhost'])` coerces the array to the string
`'localhost'` and therefore tests substring containment, so any address
that merely CONTAINS `localhost` — here `xlocalhosty`, which is not a valid
address literal and not the literal `localhost` — is normalized to
`127.0.0.1` and accepted as an IPv4 host instead of failing. -/
theorem host_substring_of_localhost_accepted :
    hostConstruct isIPSample "xlocalhosty" 5744 =
      Except.ok { family := "IPv4", address := "127.0.0.1", port := 5744 } := by
  rfl

/-! ### Claim C3: reconnection limit (`Peer._socketEventError`) -/

theorem errorStorm_connecting (m : Nat) (evs : List PEvent) :
    ∀ (n a : Nat),
      errorStorm
        { state := some "connecting", connectionAttempts := a, socketPresent := true,
          maxConnectionAttempts := m, events := evs } n =
      { state := some "connecting", connectionAttempts := a + n, socketPresent := true,
        maxConnectionAttempts := m, events := evs } := by
  intro n
  induction n with
  | zero => intro a; rfl
  | succ k ih =>
      intro a
      have hstep :
          socketEventError
            { state := some "connecting", connectionAttempts := a, socketPresent := true,
              maxConnectionAttempts := m, events := evs } "ECONNREFUSED" =
          { state := some "connecting", connectionAttempts := a + 1, socketPresent := true,
            maxConnectionAttempts := m, events := evs } := by
        rfl
      show errorStorm _ (k + 1) = _
      rw [errorStorm, hstep, ih (a + 1)]
      congr 1
      omega

/-- C3 (code_bug): the claim (and the constructor's own documentation of
`maxConnectionAttempts`) says a `Peer` in the `Connecting` state stops
retrying once the counter reaches the configured maximum (default 10) and
raises exactly one error notification.  The source guard at line 186 reads
the misspelled, never-assigned property `_maxConnectionAttemps`, so the
comparison `attempts >= undefined` is always false: for EVERY number `n` of
consecutive transport errors — in particular `n` past the default limit of
`connectingPeerSample` — the Peer has retried `n` times, is still
connecting, and has emitted no error notification at all. -/
theorem reconnect_limit_never_enforced (n : Nat) :
    (errorStorm connectingPeerSample n).events = [] ∧
    (errorStorm connectingPeerSample n).connectionAttempts = n ∧
    (errorStorm connectingPeerSample n).state = some "connecting" ∧
    (errorStorm connectingPeerSample n).socketPresent = true := by
  have h := errorStorm_connecting 10 [] n 0
  rw [show connectingPeerSample =
    { state := some "connecting", connectionAttempts := 0, socketPresent := true,
      maxConnectionAttempts := 10, events := [] } from rfl, h]
  simp

/-! ### Claim C7: buffer overflow poisons ingestion (`Peer._socketEventData`) -/

/-- C7 (confirmed): a chunk that would overrun the accumulation buffer
makes `_socketEventData` emit the overflow error and pin the cursor to
`length + 1` without touching the buffer; and once the cursor sits past the
capacity, every subsequent data event leaves the buffer bytes untouched,
re-pins the cursor past capacity and surfaces no message notification (only
the overflow error again) — the fault is terminal. -/
theorem buffer_overflow_poisons_ingestion
    (hmac : String → List Nat → String)
    (pubDecrypt : List Nat → List Nat → List Nat) :
    (∀ (p : PeerIngest) (c : List Nat),
       p.inBuffer.length < c.length + p.inCursor →
       socketEventData hmac pubDecrypt p c =
         { p with
           events := p.events ++ [PEvent.error "Peer exceeded max receiving buffer"]
           inCursor := p.inBuffer.length + 1 }) ∧
    (∀ (p : PeerIngest) (c : List Nat),
       p.inBuffer.length < p.inCursor →
       socketEventData hmac pubDecrypt p c =
         { p with
           events := p.events ++ [PEvent.error "Peer exceeded max receiving buffer"]
           inCursor := p.inBuffer.length + 1 }) := by
  constructor
  · intro p c h
    rw [socketEventData, if_pos (by omega)]
  · intro p c h
    rw [socketEventData, if_pos (by omega)]

/-- Witness for C7 at concrete inputs: a 5-byte buffer receiving a 6-byte
chunk overflows and pins the cursor at 6; a poisoned Peer (cursor 6 over a
5-byte buffer) stays poisoned on a later 1-byte chunk and surfaces no
message. -/
theorem buffer_overflow_poisons_ingestion_witness :
    ((List.replicate 5 (0 : Nat)).length < (List.replicate 6 (0 : Nat)).length + 0 ∧
      socketEventData hmacSample pubDecryptSample
        { header := 2726085026, inBuffer := List.replicate 5 0, inCursor := 0,
          remotePublicKey := none, events := [] } (List.replicate 6 0) =
        { header := 2726085026, inBuffer := List.replicate 5 0, inCursor := 6,
          remotePublicKey := none,
          events := [PEvent.error "Peer exceeded max receiving buffer"] }) ∧
    ((List.replicate 5 (0 : Nat)).length < 6 ∧
      socketEventData hmacSample pubDecryptSample
        { header := 2726085026, inBuffer := List.replicate 5 0, inCursor := 6,
          remotePublicKey := none, events := [] } [7] =
        { header := 2726085026, inBuffer := List.replicate 5 0, inCursor := 6,
          remotePublicKey := none,
          events := [PEvent.error "Peer exceeded max receiving buffer"] }) := by
  refine ⟨⟨by decide, ?_⟩, ⟨by decide, ?_⟩⟩
  · exact (buffer_overflow_poisons_ingestion hmacSample pubDecryptSample).1
      { header := 2726085026, inBuffer := List.replicate 5 0, inCursor := 0,
        remotePublicKey := none, events := [] } (List.replicate 6 0) (by decide)
  · exact (buffer_overflow_poisons_ingestion hmacSample pubDecryptSample).2
      { header := 2726085026, inBuffer := List.replicate 5 0, inCursor := 6,
        remotePublicKey := none, events := [] } [7] (by decide)


/-! ### Fragmentation independence: lemmas about the splitting loop -/

theorem scanLoop_succ_step (hmac : String → List Nat → String)
    (pubDecrypt : List Nat → List Nat → List Nat) (header : Nat)
    (buf : List Nat) (n f c m : Nat) (rpk : Option (List Nat)) (evs : List PEvent)
    (hc : c < n) :
    scanLoop hmac pubDecrypt header buf n (f + 1) c m rpk evs =
      if readUInt32LE buf c = header then
        if n > c + 16 then
          if n ≥ c + readUInt32LE buf (c + 16) + 24 then
            scanLoop hmac pubDecrypt header buf n f
              (c + readUInt32LE buf (c + 16) + 24) (c + readUInt32LE buf (c + 16) + 24)
              (processMessage hmac pubDecrypt rpk
                ((buf.drop c).take (readUInt32LE buf (c + 16) + 24))).1
              (evs ++ (processMessage hmac pubDecrypt rpk
                ((buf.drop c).take (readUInt32LE buf (c + 16) + 24))).2)
          else
            scanLoop hmac pubDecrypt header buf n f
              (c + readUInt32LE buf (c + 16) + 24) m rpk evs
        else scanLoop hmac pubDecrypt header buf n f n m rpk evs
      else scanLoop hmac pubDecrypt header buf n f (c + 1) m rpk evs := by
  rw [scanLoop, if_pos hc]

theorem scanLoop_fuel_irrelevant (hmac : String → List Nat → String)
    (pubDecrypt : List Nat → List Nat → List Nat) (header : Nat)
    (buf : List Nat) (n : Nat) :
    ∀ (f₁ f₂ c m : Nat) (rpk : Option (List Nat)) (evs : List PEvent),
      n ≤ c + f₁ → n ≤ c + f₂ →
      scanLoop hmac pubDecrypt header buf n f₁ c m rpk evs =
        scanLoop hmac pubDecrypt header buf n f₂ c m rpk evs := by
  intro f₁
  induction f₁ with
  | zero =>
      intro f₂ c m rpk evs h1 h2
      exact (scanLoop_exit hmac pubDecrypt header buf n 0 c m rpk evs
          (by omega)).trans
        (scanLoop_exit hmac pubDecrypt header buf n f₂ c m rpk evs (by omega)).symm
  | succ f ih =>
      intro f₂ c m rpk evs h1 h2
      by_cases hc : c < n
      · obtain ⟨f₂', rfl⟩ : ∃ f₂', f₂ = f₂' + 1 := by
          cases f₂ with
          | zero => omega
          | succ x => exact ⟨x, rfl⟩
        rw [scanLoop_succ_step hmac pubDecrypt header buf n f c m rpk evs hc,
          scanLoop_succ_step hmac pubDecrypt header buf n f₂' c m rpk evs hc]
        split_ifs with hm h16 hcomp
        · exact ih _ _ _ _ _ (by omega) (by omega)
        · exact ih _ _ _ _ _ (by omega) (by omega)
        · exact ih _ _ _ _ _ (by omega) (by omega)
        · exact ih _ _ _ _ _ (by omega) (by omega)
      · exact (scanLoop_exit hmac pubDecrypt header buf n (f + 1) c m rpk evs
            (by omega)).trans
          (scanLoop_exit hmac pubDecrypt header buf n f₂ c m rpk evs (by omega)).symm

theorem scanLoop_near_end (hmac : String → List Nat → String)
    (pubDecrypt : List Nat → List Nat → List Nat) (header : Nat)
    (buf : List Nat) (n : Nat) :
    ∀ (f c m : Nat) (rpk : Option (List Nat)) (evs : List PEvent), n ≤ c + 16 →
      scanLoop hmac pubDecrypt header buf n f c m rpk evs = (m, rpk, evs) := by
  intro f
  induction f with
  | zero => intro c m rpk evs h16; rfl
  | succ f ih =>
      intro c m rpk evs h16
      by_cases hc : c < n
      · rw [scanLoop_succ_step hmac pubDecrypt header buf n f c m rpk evs hc]
        by_cases hm : readUInt32LE buf c = header
        · rw [if_pos hm, if_neg (by omega : ¬ n > c + 16)]
          exact scanLoop_exit hmac pubDecrypt header buf n f n m rpk evs (le_refl n)
        · rw [if_neg hm]
          exact ih (c + 1) m rpk evs (by omega)
      · exact scanLoop_exit hmac pubDecrypt header buf n (f + 1) c m rpk evs (by omega)

theorem scanLoop_short (hmac : String → List Nat → String)
    (pubDecrypt : List Nat → List Nat → List Nat) (header : Nat)
    (buf : List Nat) (n : Nat) (hn : n ≤ 23) :
    ∀ (f c m : Nat) (rpk : Option (List Nat)) (evs : List PEvent),
      scanLoop hmac pubDecrypt header buf n f c m rpk evs = (m, rpk, evs) := by
  intro f
  induction f with
  | zero => intro c m rpk evs; rfl
  | succ f ih =>
      intro c m rpk evs
      by_cases hc : c < n
      · rw [scanLoop_succ_step hmac pubDecrypt header buf n f c m rpk evs hc]
        split_ifs with hm h16 hcomp
        · omega
        · exact scanLoop_exit hmac pubDecrypt header buf n f _ m rpk evs (by omega)
        · exact scanLoop_exit hmac pubDecrypt header buf n f n m rpk evs (by omega)
        · exact ih (c + 1) m rpk evs
      · exact scanLoop_exit hmac pubDecrypt header buf n (f + 1) c m rpk evs (by omega)

theorem scanLoop_messageEnd_le (hmac : String → List Nat → String)
    (pubDecrypt : List Nat → List Nat → List Nat) (header : Nat)
    (buf : List Nat) (n : Nat) :
    ∀ (f c m : Nat) (rpk : Option (List Nat)) (evs : List PEvent), m ≤ n →
      (scanLoop hmac pubDecrypt header buf n f c m rpk evs).1 ≤ n := by
  intro f
  induction f with
  | zero => intro c m rpk evs hm; exact hm
  | succ f ih =>
      intro c m rpk evs hm
      by_cases hc : c < n
      · rw [scanLoop_succ_step hmac pubDecrypt header buf n f c m rpk evs hc]
        split_ifs with hm2 h16 hcomp
        · exact ih _ _ _ _ (by omega)
        · exact ih _ _ _ _ hm
        · exact ih _ _ _ _ hm
        · exact ih _ _ _ _ hm
      · rw [scanLoop_exit hmac pubDecrypt header buf n (f + 1) c m rpk evs (by omega)]
        exact hm

theorem scanLoop_events_acc (hmac : String → List Nat → String)
    (pubDecrypt : List Nat → List Nat → List Nat) (header : Nat)
    (buf : List Nat) (n : Nat) :
    ∀ (f c m : Nat) (rpk : Option (List Nat)) (evs : List PEvent),
      scanLoop hmac pubDecrypt header buf n f c m rpk evs =
        ((scanLoop hmac pubDecrypt header buf n f c m rpk []).1,
          (scanLoop hmac pubDecrypt header buf n f c m rpk []).2.1,
          evs ++ (scanLoop hmac pubDecrypt header buf n f c m rpk []).2.2) := by
  intro f
  induction f with
  | zero => intro c m rpk evs; simp [scanLoop]
  | succ f ih =>
      intro c m rpk evs
      by_cases hc : c < n
      · rw [scanLoop_succ_step hmac pubDecrypt header buf n f c m rpk evs hc,
          scanLoop_succ_step hmac pubDecrypt header buf n f c m rpk [] hc]
        split_ifs with hm2 h16 hcomp
        · rw [ih _ _ _ (evs ++ _), ih _ _ _ ([] ++ _)]
          simp
        · exact ih _ _ _ _
        · exact ih _ _ _ _
        · exact ih _ _ _ _
      · rw [scanLoop_exit hmac pubDecrypt header buf n (f + 1) c m rpk evs (by omega),
          scanLoop_exit hmac pubDecrypt header buf n (f + 1) c m rpk [] (by omega)]
        simp

theorem scanLoop_skip_range (hmac : String → List Nat → String)
    (pubDecrypt : List Nat → List Nat → List Nat) (header : Nat)
    (buf : List Nat) (n : Nat) :
    ∀ (f' f c' c m : Nat) (rpk : Option (List Nat)) (evs : List PEvent),
      c' ≤ c → (∀ x, c' ≤ x → x < c → readUInt32LE buf x ≠ header) →
      n ≤ c' + f' → n ≤ c + f →
      scanLoop hmac pubDecrypt header buf n f' c' m rpk evs =
        scanLoop hmac pubDecrypt header buf n f c m rpk evs := by
  intro f'
  induction f' with
  | zero =>
      intro f c' c m rpk evs hle hno h1 h2
      exact (scanLoop_exit hmac pubDecrypt header buf n 0 c' m rpk evs (by omega)).trans
        (scanLoop_exit hmac pubDecrypt header buf n f c m rpk evs (by omega)).symm
  | succ f' ih =>
      intro f c' c m rpk evs hle hno h1 h2
      by_cases heq : c' = c
      · subst heq
        exact scanLoop_fuel_irrelevant hmac pubDecrypt header buf n (f' + 1) f c' m
          rpk evs (by omega) (by omega)
      · by_cases hc : c' < n
        · rw [scanLoop_succ_step hmac pubDecrypt header buf n f' c' m rpk evs hc]
          rw [if_neg (hno c' (by omega) (by omega))]
          exact ih f (c' + 1) c m rpk evs (by omega)
            (fun x hx1 hx2 => hno x (by omega) hx2) (by omega) h2
        · exact (scanLoop_exit hmac pubDecrypt header buf n (f' + 1) c' m rpk evs
              (by omega)).trans
            (scanLoop_exit hmac pubDecrypt header buf n f c m rpk evs (by omega)).symm

theorem scanLoop_congr_content (hmac : String → List Nat → String)
    (pubDecrypt : List Nat → List Nat → List Nat) (header : Nat)
    (buf₁ buf₂ : List Nat) (n : Nat)
    (hn₁ : n ≤ buf₁.length) (hn₂ : n ≤ buf₂.length)
    (hag : ∀ i, i < n → buf₁.getD i 0 = buf₂.getD i 0) :
    ∀ (f c m : Nat) (rpk : Option (List Nat)) (evs : List PEvent),
      scanLoop hmac pubDecrypt header buf₁ n f c m rpk evs =
        scanLoop hmac pubDecrypt header buf₂ n f c m rpk evs := by
  have hread : ∀ x, x + 4 ≤ n → readUInt32LE buf₁ x = readUInt32LE buf₂ x := by
    intro x hx
    simp only [readUInt32LE]
    rw [hag x (by omega), hag (x + 1) (by omega), hag (x + 2) (by omega),
      hag (x + 3) (by omega)]
  have hslice : ∀ c L, c + L ≤ n → (buf₁.drop c).take L = (buf₂.drop c).take L := by
    intro c L hcL
    apply list_ext_getD
    · simp only [List.length_take, List.length_drop]
      omega
    · intro k hk
      rw [List.length_take, List.length_drop] at hk
      have hkL : k < L := by omega
      rw [getD_take_lt _ _ _ hkL, getD_take_lt _ _ _ hkL, getD_drop, getD_drop]
      exact hag (c + k) (by omega)
  intro f
  induction f with
  | zero => intro c m rpk evs; rfl
  | succ f ih =>
      intro c m rpk evs
      by_cases hc : c < n
      · by_cases h4 : c + 4 ≤ n
        · have hr := hread c h4
          rw [scanLoop_succ_step hmac pubDecrypt header buf₁ n f c m rpk evs hc,
            scanLoop_succ_step hmac pubDecrypt header buf₂ n f c m rpk evs hc]
          by_cases hm : readUInt32LE buf₁ c = header
          · have hm₂ : readUInt32LE buf₂ c = header := by rw [← hr]; exact hm
            rw [if_pos hm, if_pos hm₂]
            by_cases h16 : n > c + 16
            · rw [if_pos h16, if_pos h16]
              by_cases h20 : c + 20 ≤ n
              · have hr16 := hread (c + 16) (by omega)
                rw [← hr16]
                by_cases hcomp : n ≥ c + readUInt32LE buf₁ (c + 16) + 24
                · rw [if_pos hcomp, if_pos hcomp,
                    ← hslice c (readUInt32LE buf₁ (c + 16) + 24) (by omega)]
                  exact ih _ _ _ _
                · rw [if_neg hcomp, if_neg hcomp]
                  exact ih _ _ _ _
              · by_cases hcomp₁ : n ≥ c + readUInt32LE buf₁ (c + 16) + 24
                · exact absurd hcomp₁ (by omega)
                · rw [if_neg hcomp₁, if_neg (by omega :
                      ¬ n ≥ c + readUInt32LE buf₂ (c + 16) + 24)]
                  exact (scanLoop_exit hmac pubDecrypt header buf₁ n f _ m rpk evs
                      (by omega)).trans
                    (scanLoop_exit hmac pubDecrypt header buf₂ n f _ m rpk evs
                      (by omega)).symm
            · rw [if_neg h16, if_neg h16]
              exact (scanLoop_exit hmac pubDecrypt header buf₁ n f n m rpk evs
                  (le_refl n)).trans
                (scanLoop_exit hmac pubDecrypt header buf₂ n f n m rpk evs
                  (le_refl n)).symm
          · have hm₂ : ¬ readUInt32LE buf₂ c = header := by rw [← hr]; exact hm
            rw [if_neg hm, if_neg hm₂]
            exact ih _ _ _ _
        · exact (scanLoop_near_end hmac pubDecrypt header buf₁ n (f + 1) c m rpk evs
              (by omega)).trans
            (scanLoop_near_end hmac pubDecrypt header buf₂ n (f + 1) c m rpk evs
              (by omega)).symm
      · exact (scanLoop_exit hmac pubDecrypt header buf₁ n (f + 1) c m rpk evs
            (by omega)).trans
          (scanLoop_exit hmac pubDecrypt header buf₂ n (f + 1) c m rpk evs
            (by omega)).symm

theorem scanLoop_shift (hmac : String → List Nat → String)
    (pubDecrypt : List Nat → List Nat → List Nat) (header : Nat)
    (buf : List Nat) (n k : Nat) (hk : k ≤ n) :
    ∀ (f c m : Nat) (rpk : Option (List Nat)) (evs : List PEvent),
      scanLoop hmac pubDecrypt header buf n f (k + c) (k + m) rpk evs =
        (k + (scanLoop hmac pubDecrypt header (buf.drop k) (n - k) f c m rpk evs).1,
          (scanLoop hmac pubDecrypt header (buf.drop k) (n - k) f c m rpk evs).2.1,
          (scanLoop hmac pubDecrypt header (buf.drop k) (n - k) f c m rpk evs).2.2) := by
  have hread : ∀ x, readUInt32LE (buf.drop k) x = readUInt32LE buf (k + x) := by
    intro x
    simp only [readUInt32LE]
    rw [getD_drop, getD_drop, getD_drop, getD_drop,
      show k + (x + 1) = k + x + 1 from by omega,
      show k + (x + 2) = k + x + 2 from by omega,
      show k + (x + 3) = k + x + 3 from by omega]
  intro f
  induction f with
  | zero => intro c m rpk evs; rfl
  | succ f ih =>
      intro c m rpk evs
      by_cases hc : c < n - k
      · rw [scanLoop_succ_step hmac pubDecrypt header buf n f (k + c) (k + m) rpk evs
          (by omega),
          scanLoop_succ_step hmac pubDecrypt header (buf.drop k) (n - k) f c m rpk evs hc]
        rw [show readUInt32LE buf (k + c) = readUInt32LE (buf.drop k) c from
          (hread c).symm]
        by_cases hm : readUInt32LE (buf.drop k) c = header
        · rw [if_pos hm, if_pos hm]
          by_cases h16 : n - k > c + 16
          · rw [if_pos (by omega : n > k + c + 16), if_pos h16]
            rw [show k + c + 16 = k + (c + 16) from by omega,
              show readUInt32LE buf (k + (c + 16)) =
                readUInt32LE (buf.drop k) (c + 16) from (hread (c + 16)).symm]
            by_cases hcomp : n - k ≥ c + readUInt32LE (buf.drop k) (c + 16) + 24
            · rw [if_pos (by omega :
                  n ≥ k + c + readUInt32LE (buf.drop k) (c + 16) + 24), if_pos hcomp]
              rw [show k + c + readUInt32LE (buf.drop k) (c + 16) + 24 =
                  k + (c + readUInt32LE (buf.drop k) (c + 16) + 24) from by omega,
                show buf.drop (k + c) = (buf.drop k).drop c from
                  (List.drop_drop c k buf).symm]
              exact ih _ _ _ _
            · rw [if_neg (by omega :
                  ¬ n ≥ k + c + readUInt32LE (buf.drop k) (c + 16) + 24), if_neg hcomp]
              rw [show k + c + readUInt32LE (buf.drop k) (c + 16) + 24 =
                  k + (c + readUInt32LE (buf.drop k) (c + 16) + 24) from by omega]
              exact ih _ _ _ _
          · rw [if_neg (by omega : ¬ n > k + c + 16), if_neg h16]
            rw [scanLoop_exit hmac pubDecrypt header buf n f n (k + m) rpk evs
                (le_refl n),
              scanLoop_exit hmac pubDecrypt header (buf.drop k) (n - k) f (n - k) m
                rpk evs (le_refl (n - k))]
        · rw [if_neg hm, if_neg hm]
          rw [show k + c + 1 = k + (c + 1) from by omega]
          exact ih _ _ _ _
      · rw [scanLoop_exit hmac pubDecrypt header buf n (f + 1) (k + c) (k + m) rpk evs
            (by omega),
          scanLoop_exit hmac pubDecrypt header (buf.drop k) (n - k) (f + 1) c m rpk evs
            (by omega)]

theorem scanLoop_extend (hmac : String → List Nat → String)
    (pubDecrypt : List Nat → List Nat → List Nat) (header : Nat)
    (C Dxs : List Nat) :
    ∀ (f₁ f₂ f₃ c m : Nat) (rpk : Option (List Nat)) (evs : List PEvent),
      c ≤ C.length → m ≤ c →
      (∀ x, m ≤ x → x < c → readUInt32LE (C ++ Dxs) x ≠ header) →
      C.length ≤ c + f₁ → C.length + Dxs.length ≤ c + f₂ →
      C.length + Dxs.length ≤ f₃ →
      scanLoop hmac pubDecrypt header (C ++ Dxs) (C.length + Dxs.length) f₂ c m
          rpk evs =
        scanLoop hmac pubDecrypt header (C ++ Dxs) (C.length + Dxs.length) f₃
          (scanLoop hmac pubDecrypt header C C.length f₁ c m rpk evs).1
          (scanLoop hmac pubDecrypt header C C.length f₁ c m rpk evs).1
          (scanLoop hmac pubDecrypt header C C.length f₁ c m rpk evs).2.1
          (scanLoop hmac pubDecrypt header C C.length f₁ c m rpk evs).2.2 := by
  intro f₁
  induction f₁ with
  | zero =>
      intro f₂ f₃ c m rpk evs hcC hmc hno hf₁ hf₂ hf₃
      have hterm := (scanLoop_skip_range hmac pubDecrypt header (C ++ Dxs)
        (C.length + Dxs.length) f₃ f₂ m c m rpk evs hmc hno (by omega)
        (by omega)).symm
      rw [show scanLoop hmac pubDecrypt header C C.length 0 c m rpk evs =
        (m, rpk, evs) from rfl]
      exact hterm
  | succ f₁ ih =>
      intro f₂ f₃ c m rpk evs hcC hmc hno hf₁ hf₂ hf₃
      have hterm := (scanLoop_skip_range hmac pubDecrypt header (C ++ Dxs)
        (C.length + Dxs.length) f₃ f₂ m c m rpk evs hmc hno (by omega)
        (by omega)).symm
      by_cases hc : c < C.length
      · by_cases h4 : c + 4 ≤ C.length
        · have hr : readUInt32LE (C ++ Dxs) c = readUInt32LE C c :=
            readUInt32LE_append_left C Dxs c h4
          by_cases hm2 : readUInt32LE C c = header
          · by_cases h16 : C.length > c + 16
            · by_cases h20 : c + 20 ≤ C.length
              · have hr16 : readUInt32LE (C ++ Dxs) (c + 16) = readUInt32LE C (c + 16) :=
                  readUInt32LE_append_left C Dxs (c + 16) (by omega)
                by_cases hcomp : C.length ≥ c + readUInt32LE C (c + 16) + 24
                · obtain ⟨f₂', rfl⟩ : ∃ f₂', f₂ = f₂' + 1 := by
                    cases f₂ with
                    | zero => omega
                    | succ x => exact ⟨x, rfl⟩
                  have hm2b : readUInt32LE (C ++ Dxs) c = header := by
                    rw [hr]
                    exact hm2
                  rw [scanLoop_succ_step hmac pubDecrypt header C C.length f₁ c m rpk
                      evs hc,
                    if_pos hm2, if_pos h16, if_pos hcomp,
                    scanLoop_succ_step hmac pubDecrypt header (C ++ Dxs)
                      (C.length + Dxs.length) f₂' c m rpk evs (by omega),
                    if_pos hm2b, if_pos (by omega : C.length + Dxs.length > c + 16),
                    hr16,
                    if_pos (by omega :
                      C.length + Dxs.length ≥ c + readUInt32LE C (c + 16) + 24),
                    List.drop_append_of_le_length (by omega),
                    List.take_append_of_le_length
                      (by rw [List.length_drop]; omega)]
                  exact ih f₂' f₃ _ _ _ _ (by omega) (by omega)
                    (fun x hx1 hx2 => absurd hx1 (by omega)) (by omega) (by omega)
                    (by omega)
                · have hsmall : scanLoop hmac pubDecrypt header C C.length (f₁ + 1) c m
                      rpk evs = (m, rpk, evs) := by
                    rw [scanLoop_succ_step hmac pubDecrypt header C C.length f₁ c m rpk
                        evs hc,
                      if_pos hm2, if_pos h16, if_neg hcomp]
                    exact scanLoop_exit hmac pubDecrypt header C C.length f₁ _ m rpk
                      evs (by omega)
                  rw [hsmall]
                  exact hterm
              · have hsmall : scanLoop hmac pubDecrypt header C C.length (f₁ + 1) c m
                    rpk evs = (m, rpk, evs) := by
                  rw [scanLoop_succ_step hmac pubDecrypt header C C.length f₁ c m rpk
                      evs hc,
                    if_pos hm2, if_pos h16,
                    if_neg (by omega :
                      ¬ C.length ≥ c + readUInt32LE C (c + 16) + 24)]
                  exact scanLoop_exit hmac pubDecrypt header C C.length f₁ _ m rpk evs
                    (by omega)
                rw [hsmall]
                exact hterm
            · have hsmall : scanLoop hmac pubDecrypt header C C.length (f₁ + 1) c m
                  rpk evs = (m, rpk, evs) := by
                rw [scanLoop_succ_step hmac pubDecrypt header C C.length f₁ c m rpk evs
                    hc,
                  if_pos hm2, if_neg h16]
                exact scanLoop_exit hmac pubDecrypt header C C.length f₁ C.length m rpk
                  evs (le_refl C.length)
              rw [hsmall]
              exact hterm
          · obtain ⟨f₂', rfl⟩ : ∃ f₂', f₂ = f₂' + 1 := by
              cases f₂ with
              | zero => omega
              | succ x => exact ⟨x, rfl⟩
            have hm2b : ¬ readUInt32LE (C ++ Dxs) c = header := by
              rw [hr]
              exact hm2
            rw [scanLoop_succ_step hmac pubDecrypt header C C.length f₁ c m rpk evs hc,
              if_neg hm2,
              scanLoop_succ_step hmac pubDecrypt header (C ++ Dxs)
                (C.length + Dxs.length) f₂' c m rpk evs (by omega),
              if_neg hm2b]
            refine ih f₂' f₃ (c + 1) m rpk evs (by omega) (by omega) ?_ (by omega)
              (by omega) (by omega)
            intro x hx1 hx2
            by_cases hxc : x < c
            · exact hno x hx1 hxc
            · have hxeq : x = c := by omega
              subst hxeq
              exact hm2b
        · have hsmall : scanLoop hmac pubDecrypt header C C.length (f₁ + 1) c m rpk
              evs = (m, rpk, evs) :=
            scanLoop_near_end hmac pubDecrypt header C C.length (f₁ + 1) c m rpk evs
              (by omega)
          rw [hsmall]
          exact hterm
      · have hsmall : scanLoop hmac pubDecrypt header C C.length (f₁ + 1) c m rpk
            evs = (m, rpk, evs) :=
          scanLoop_exit hmac pubDecrypt header C C.length (f₁ + 1) c m rpk evs
            (by omega)
        rw [hsmall]
        exact hterm

theorem pureStep_append (hmac : String → List Nat → String)
    (pubDecrypt : List Nat → List Nat → List Nat) (header : Nat)
    (σ : PureState) (a b : List Nat) :
    pureStep hmac pubDecrypt header (pureStep hmac pubDecrypt header σ a) b =
      pureStep hmac pubDecrypt header σ (a ++ b) := by
  by_cases h1 : (σ.residue ++ a).length < 20
  · have hstep1 : pureStep hmac pubDecrypt header σ a =
        { residue := σ.residue ++ a, rpk := σ.rpk, events := σ.events } := by
      simp only [pureStep]
      rw [if_pos h1]
    rw [hstep1]
    simp only [pureStep]
    rw [← List.append_assoc]
  · have hstep1 : pureStep hmac pubDecrypt header σ a =
        { residue := (σ.residue ++ a).drop
            (scanLoop hmac pubDecrypt header (σ.residue ++ a) (σ.residue ++ a).length
              ((σ.residue ++ a).length + 1) 0 0 σ.rpk σ.events).1,
          rpk := (scanLoop hmac pubDecrypt header (σ.residue ++ a)
              (σ.residue ++ a).length
              ((σ.residue ++ a).length + 1) 0 0 σ.rpk σ.events).2.1,
          events := (scanLoop hmac pubDecrypt header (σ.residue ++ a)
              (σ.residue ++ a).length
              ((σ.residue ++ a).length + 1) 0 0 σ.rpk σ.events).2.2 } := by
      simp only [pureStep]
      rw [if_neg h1]
    rw [hstep1]
    set r := scanLoop hmac pubDecrypt header (σ.residue ++ a) (σ.residue ++ a).length
      ((σ.residue ++ a).length + 1) 0 0 σ.rpk σ.events with hrdef
    have hk : r.1 ≤ (σ.residue ++ a).length := by
      rw [hrdef]
      exact scanLoop_messageEnd_le hmac pubDecrypt header (σ.residue ++ a)
        (σ.residue ++ a).length ((σ.residue ++ a).length + 1) 0 0 σ.rpk σ.events
        (Nat.zero_le _)
    have hR20 : ¬ (σ.residue ++ (a ++ b)).length < 20 := by
      rw [← List.append_assoc, List.length_append]
      omega
    have hRstep : pureStep hmac pubDecrypt header σ (a ++ b) =
        { residue := (σ.residue ++ (a ++ b)).drop
            (scanLoop hmac pubDecrypt header (σ.residue ++ (a ++ b))
              (σ.residue ++ (a ++ b)).length
              ((σ.residue ++ (a ++ b)).length + 1) 0 0 σ.rpk σ.events).1,
          rpk := (scanLoop hmac pubDecrypt header (σ.residue ++ (a ++ b))
              (σ.residue ++ (a ++ b)).length
              ((σ.residue ++ (a ++ b)).length + 1) 0 0 σ.rpk σ.events).2.1,
          events := (scanLoop hmac pubDecrypt header (σ.residue ++ (a ++ b))
              (σ.residue ++ (a ++ b)).length
              ((σ.residue ++ (a ++ b)).length + 1) 0 0 σ.rpk σ.events).2.2 } := by
      simp only [pureStep]
      rw [if_neg hR20]
    rw [hRstep,
      show σ.residue ++ (a ++ b) = (σ.residue ++ a) ++ b from
        (List.append_assoc _ _ _).symm,
      show ((σ.residue ++ a) ++ b).length = (σ.residue ++ a).length + b.length from
        List.length_append _ _]
    have hext := scanLoop_extend hmac pubDecrypt header (σ.residue ++ a) b
      ((σ.residue ++ a).length + 1) ((σ.residue ++ a).length + b.length + 1)
      ((σ.residue ++ a).length + b.length + 1) 0 0 σ.rpk σ.events
      (Nat.zero_le _) (Nat.le_refl 0) (fun x hx1 hx2 => absurd hx2 (by omega))
      (by omega) (by omega) (by omega)
    rw [hext, ← hrdef]
    have hshift := scanLoop_shift hmac pubDecrypt header ((σ.residue ++ a) ++ b)
      ((σ.residue ++ a).length + b.length) r.1 (by omega)
      ((σ.residue ++ a).length + b.length + 1) 0 0 r.2.1 r.2.2
    simp only [Nat.add_zero] at hshift
    rw [List.drop_append_of_le_length hk] at hshift
    have hlen2 : (σ.residue ++ a).length + b.length - r.1 =
        ((σ.residue ++ a).drop r.1 ++ b).length := by
      have hk2 := hk
      simp only [List.length_append] at hk2
      simp only [List.length_append, List.length_drop]
      omega
    rw [hlen2] at hshift
    rw [hshift]
    have hdd : ∀ q, ((σ.residue ++ a) ++ b).drop (r.1 + q) =
        ((σ.residue ++ a).drop r.1 ++ b).drop q := by
      intro q
      rw [← List.drop_drop, List.drop_append_of_le_length hk]
    by_cases h2 : ((σ.residue ++ a).drop r.1 ++ b).length < 20
    · have hLstep : pureStep hmac pubDecrypt header
          { residue := (σ.residue ++ a).drop r.1, rpk := r.2.1, events := r.2.2 } b =
          { residue := (σ.residue ++ a).drop r.1 ++ b, rpk := r.2.1,
            events := r.2.2 } := by
        simp only [pureStep]
        rw [if_pos h2]
      rw [hLstep]
      have hs := scanLoop_short hmac pubDecrypt header
        ((σ.residue ++ a).drop r.1 ++ b) (((σ.residue ++ a).drop r.1 ++ b).length)
        (by omega) ((σ.residue ++ a).length + b.length + 1) 0 0 r.2.1 r.2.2
      rw [hs, hdd]
      simp

    · have hLstep : pureStep hmac pubDecrypt header
          { residue := (σ.residue ++ a).drop r.1, rpk := r.2.1, events := r.2.2 } b =
          { residue := ((σ.residue ++ a).drop r.1 ++ b).drop
              (scanLoop hmac pubDecrypt header ((σ.residue ++ a).drop r.1 ++ b)
                ((σ.residue ++ a).drop r.1 ++ b).length
                (((σ.residue ++ a).drop r.1 ++ b).length + 1) 0 0 r.2.1 r.2.2).1,
            rpk := (scanLoop hmac pubDecrypt header ((σ.residue ++ a).drop r.1 ++ b)
                ((σ.residue ++ a).drop r.1 ++ b).length
                (((σ.residue ++ a).drop r.1 ++ b).length + 1) 0 0 r.2.1 r.2.2).2.1,
            events := (scanLoop hmac pubDecrypt header
                ((σ.residue ++ a).drop r.1 ++ b)
                ((σ.residue ++ a).drop r.1 ++ b).length
                (((σ.residue ++ a).drop r.1 ++ b).length + 1) 0 0 r.2.1 r.2.2).2.2 } := by
        simp only [pureStep]
        rw [if_neg h2]
      rw [hLstep]
      have hfuel1 : ((σ.residue ++ a).drop r.1 ++ b).length ≤
          0 + ((σ.residue ++ a).length + b.length + 1) := by
        have hk2 := hk
        simp only [List.length_append] at hk2
        simp only [List.length_append, List.length_drop]
        omega
      have hfi := scanLoop_fuel_irrelevant hmac pubDecrypt header
        ((σ.residue ++ a).drop r.1 ++ b) (((σ.residue ++ a).drop r.1 ++ b).length)
        ((σ.residue ++ a).length + b.length + 1)
        (((σ.residue ++ a).drop r.1 ++ b).length + 1) 0 0 r.2.1 r.2.2
        hfuel1 (by omega)
      rw [hfi, hdd]

theorem foldl_pureStep (hmac : String → List Nat → String)
    (pubDecrypt : List Nat → List Nat → List Nat) (header : Nat) :
    ∀ (cs : List (List Nat)) (c : List Nat) (σ : PureState),
    List.foldl (pureStep hmac pubDecrypt header) σ (c :: cs) =
      pureStep hmac pubDecrypt header σ (c ++ cs.flatten) := by
  intro cs
  induction cs with
  | nil =>
    intro c σ
    simp
  | cons d ds ih =>
    intro c σ
    rw [List.foldl_cons, ih, pureStep_append, List.flatten_cons]

theorem socketEventData_pureStep (hmac : String → List Nat → String)
    (pubDecrypt : List Nat → List Nat → List Nat) (header B : Nat)
    (p : PeerIngest) (σ : PureState) (data : List Nat)
    (hrel : ingestRel header B p σ)
    (hfit : σ.residue.length + data.length ≤ B) :
    ingestRel header B (socketEventData hmac pubDecrypt p data)
      (pureStep hmac pubDecrypt header σ data) := by
  obtain ⟨hhd, hB, hcur, hag, hrpk, hev⟩ := hrel
  have hnov : ¬ (data.length + p.inCursor > p.inBuffer.length) := by
    rw [hcur, hB]
    omega
  have hcB : p.inCursor ≤ p.inBuffer.length := by
    rw [hcur, hB]
    omega
  have hcopy : jsCopy data p.inBuffer p.inCursor 0 data.length =
      p.inBuffer.take p.inCursor ++ data ++
        p.inBuffer.drop (p.inCursor + data.length) :=
    jsCopy_full_src data p.inBuffer p.inCursor (by rw [hcur, hB]; omega)
  have hbuflen : (jsCopy data p.inBuffer p.inCursor 0 data.length).length = B := by
    rw [length_jsCopy data p.inBuffer p.inCursor 0 data.length hcB, hB]
  have hagbuf : ∀ i, i < p.inCursor + data.length →
      (jsCopy data p.inBuffer p.inCursor 0 data.length).getD i 0 =
        (σ.residue ++ data).getD i 0 := by
    intro i hi
    have hlen1 : (p.inBuffer.take p.inCursor).length = p.inCursor := by
      simp only [List.length_take]
      omega
    by_cases hi2 : i < p.inCursor
    · rw [hcopy, getD_append_any,
        if_pos (show i < (p.inBuffer.take p.inCursor ++ data).length by
          simp only [List.length_append, hlen1]; omega),
        getD_append_any, if_pos (show i < (p.inBuffer.take p.inCursor).length by
          rw [hlen1]; omega),
        getD_take_lt _ _ _ hi2, getD_append_any,
        if_pos (show i < σ.residue.length by omega)]
      exact hag i (by omega)
    · rw [hcopy, getD_append_any,
        if_pos (show i < (p.inBuffer.take p.inCursor ++ data).length by
          simp only [List.length_append, hlen1]; omega),
        getD_append_any, if_neg (show ¬ i < (p.inBuffer.take p.inCursor).length by
          rw [hlen1]; omega),
        getD_append_any, if_neg (show ¬ i < σ.residue.length by omega),
        hlen1, hcur]
  by_cases h20 : p.inCursor + data.length < 20
  · have hσ20 : (σ.residue ++ data).length < 20 := by
      simp only [List.length_append]
      omega
    simp only [ingestRel, socketEventData, pureStep]
    rw [if_neg hnov, if_pos h20, if_pos hσ20]
    refine ⟨hhd, hbuflen, ?_, ?_, hrpk, hev⟩
    · show p.inCursor + data.length = (σ.residue ++ data).length
      simp only [List.length_append]
      omega
    · show ∀ i, i < (σ.residue ++ data).length →
        (jsCopy data p.inBuffer p.inCursor 0 data.length).getD i 0 =
          (σ.residue ++ data).getD i 0
      intro i hi
      exact hagbuf i (by simp only [List.length_append] at hi; omega)
  · have hσ20 : ¬ (σ.residue ++ data).length < 20 := by
      simp only [List.length_append]
      omega
    have hlen : p.inCursor + data.length = (σ.residue ++ data).length := by
      simp only [List.length_append]
      omega
    set r := scanLoop hmac pubDecrypt header (σ.residue ++ data)
      (σ.residue ++ data).length ((σ.residue ++ data).length + 1) 0 0 σ.rpk []
      with hrd
    have hscan : scanLoop hmac pubDecrypt p.header
        (jsCopy data p.inBuffer p.inCursor 0 data.length)
        (p.inCursor + data.length) (p.inCursor + data.length + 1) 0 0
        p.remotePublicKey [] = r := by
      rw [hrd, hhd, hrpk, hlen]
      exact scanLoop_congr_content hmac pubDecrypt header
        (jsCopy data p.inBuffer p.inCursor 0 data.length) (σ.residue ++ data)
        ((σ.residue ++ data).length)
        (by rw [hbuflen]; simp only [List.length_append]; omega)
        (Nat.le_refl _)
        (fun i hi => hagbuf i (by
          simp only [List.length_append] at hi
          omega))
        ((σ.residue ++ data).length + 1) 0 0 σ.rpk []
    have hacc := scanLoop_events_acc hmac pubDecrypt header (σ.residue ++ data)
      ((σ.residue ++ data).length) ((σ.residue ++ data).length + 1) 0 0
      σ.rpk σ.events
    rw [← hrd] at hacc
    by_cases hpos : r.1 > 0
    · simp only [ingestRel, socketEventData, pureStep]
      rw [if_neg hnov, if_neg h20, if_neg hσ20, hscan, hacc, if_pos hpos]
      refine ⟨hhd, ?_, ?_, ?_, rfl, ?_⟩
      · exact (length_jsCopy _ _ _ _ _ (Nat.zero_le _)).trans hbuflen
      · show p.inCursor + data.length - r.1 = ((σ.residue ++ data).drop r.1).length
        simp only [List.length_drop, List.length_append]
        omega
      · show ∀ i, i < ((σ.residue ++ data).drop r.1).length →
          (jsCopy (jsCopy data p.inBuffer p.inCursor 0 data.length)
            (jsCopy data p.inBuffer p.inCursor 0 data.length) 0 r.1
            (p.inCursor + data.length)).getD i 0 =
          ((σ.residue ++ data).drop r.1).getD i 0
        intro i hi
        simp only [List.length_drop, List.length_append] at hi
        rw [jsCopy_compact _ r.1 (p.inCursor + data.length)
            (by rw [hbuflen]; omega),
          getD_append_any,
          if_pos (show i <
            (((jsCopy data p.inBuffer p.inCursor 0 data.length).take
              (p.inCursor + data.length)).drop r.1).length by
            simp only [List.length_drop, List.length_take, hbuflen]; omega),
          getD_drop,
          getD_take_lt _ _ _ (show r.1 + i < p.inCursor + data.length by omega),
          getD_drop]
        exact hagbuf (r.1 + i) (by omega)
      · show p.events ++ r.2.2 = σ.events ++ r.2.2
        rw [hev]
    · simp only [ingestRel, socketEventData, pureStep]
      rw [if_neg hnov, if_neg h20, if_neg hσ20, hscan, hacc, if_neg hpos]
      refine ⟨hhd, hbuflen, ?_, ?_, rfl, ?_⟩
      · show p.inCursor + data.length = ((σ.residue ++ data).drop r.1).length
        simp only [List.length_drop, List.length_append]
        omega
      · show ∀ i, i < ((σ.residue ++ data).drop r.1).length →
          (jsCopy data p.inBuffer p.inCursor 0 data.length).getD i 0 =
            ((σ.residue ++ data).drop r.1).getD i 0
        intro i hi
        simp only [List.length_drop, List.length_append] at hi
        rw [getD_drop, (show r.1 = 0 by omega), Nat.zero_add]
        exact hagbuf i (by omega)
      · show p.events ++ r.2.2 = σ.events ++ r.2.2
        rw [hev]

theorem pureStep_residue_le (hmac : String → List Nat → String)
    (pubDecrypt : List Nat → List Nat → List Nat) (header : Nat)
    (σ : PureState) (c : List Nat) :
    (pureStep hmac pubDecrypt header σ c).residue.length ≤
      σ.residue.length + c.length := by
  simp only [pureStep]
  split
  · simp
  · simp only [List.length_drop, List.length_append]
    omega

theorem feedPeer_pureStep (hmac : String → List Nat → String)
    (pubDecrypt : List Nat → List Nat → List Nat) (header B : Nat) :
    ∀ (chunks : List (List Nat)) (p : PeerIngest) (σ : PureState),
      ingestRel header B p σ →
      σ.residue.length + (chunks.flatten).length ≤ B →
      ingestRel header B (feedPeer hmac pubDecrypt p chunks)
        (List.foldl (pureStep hmac pubDecrypt header) σ chunks) := by
  intro chunks
  induction chunks with
  | nil =>
    intro p σ hrel _
    exact hrel
  | cons c cs ih =>
    intro p σ hrel hfit
    simp only [List.flatten_cons, List.length_append] at hfit
    have hstep := socketEventData_pureStep hmac pubDecrypt header B p σ c hrel
      (by omega)
    have hres := pureStep_residue_le hmac pubDecrypt header σ c
    show ingestRel header B
      (feedPeer hmac pubDecrypt (socketEventData hmac pubDecrypt p c) cs)
      (List.foldl (pureStep hmac pubDecrypt header)
        (pureStep hmac pubDecrypt header σ c) cs)
    exact ih (socketEventData hmac pubDecrypt p c)
      (pureStep hmac pubDecrypt header σ c) hstep (by omega)

theorem ingestRel_fresh (header B : Nat) :
    ingestRel header B (freshPeer header B) ⟨[], none, []⟩ := by
  refine ⟨rfl, ?_, rfl, ?_, rfl, rfl⟩
  · simp [freshPeer]
  · intro i hi
    exact absurd hi (Nat.not_lt_zero i)

/-- C2 (confirmed): how an incoming byte stream is split into successive
`data` events is invisible: feeding any chunking of a stream that fits the
receive buffer produces exactly the notifications of feeding the whole
stream as one chunk, starting from a freshly connected `Peer`. -/
theorem fragmentation_independent (hmac : String → List Nat → String)
    (pubDecrypt : List Nat → List Nat → List Nat) (header B : Nat)
    (chunks : List (List Nat))
    (h : (chunks.flatten).length ≤ B) :
    (feedPeer hmac pubDecrypt (freshPeer header B) chunks).events =
      (socketEventData hmac pubDecrypt (freshPeer header B)
        chunks.flatten).events := by
  have h0 : ingestRel header B (freshPeer header B) ⟨[], none, []⟩ :=
    ingestRel_fresh header B
  have hmulti := feedPeer_pureStep hmac pubDecrypt header B chunks
    (freshPeer header B) ⟨[], none, []⟩ h0 (by simp only [List.length_nil]; omega)
  have hsingle := socketEventData_pureStep hmac pubDecrypt header B
    (freshPeer header B) ⟨[], none, []⟩ chunks.flatten h0
    (by simp only [List.length_nil]; omega)
  have hfold : List.foldl (pureStep hmac pubDecrypt header) ⟨[], none, []⟩ chunks
      = pureStep hmac pubDecrypt header ⟨[], none, []⟩ chunks.flatten := by
    cases chunks with
    | nil => rfl
    | cons c cs => rw [foldl_pureStep, List.flatten_cons]
  obtain ⟨-, -, -, -, -, hev₁⟩ := hmulti
  obtain ⟨-, -, -, -, -, hev₂⟩ := hsingle
  rw [hev₁, hev₂, hfold]

theorem fragmentation_independent_witness :
    (([[162, 193, 124], [162, 65, 0, 0, 0, 0, 0, 0, 0, 0, 0],
       [0, 0, 1, 0, 0, 0, 97], [97, 97, 97, 1]] : List (List Nat)).flatten.length
        ≤ 40) ∧
    (feedPeer hmacSample pubDecryptSample (freshPeer 2726085026 40)
        [[162, 193, 124], [162, 65, 0, 0, 0, 0, 0, 0, 0, 0, 0],
         [0, 0, 1, 0, 0, 0, 97], [97, 97, 97, 1]]).events =
      (socketEventData hmacSample pubDecryptSample (freshPeer 2726085026 40)
        ([[162, 193, 124], [162, 65, 0, 0, 0, 0, 0, 0, 0, 0, 0],
          [0, 0, 1, 0, 0, 0, 97], [97, 97, 97, 1]] : List (List Nat)).flatten).events :=
  ⟨by decide,
    fragmentation_independent hmacSample pubDecryptSample 2726085026 40
      [[162, 193, 124], [162, 65, 0, 0, 0, 0, 0, 0, 0, 0, 0],
       [0, 0, 1, 0, 0, 0, 97], [97, 97, 97, 1]] (by decide)⟩

end PeerNode
